import Mathlib

/-!
Verification of the `hydra` DPLL SAT solver.

This file shallowly embeds the Rust sources of the repository:

* `src/literals.rs` — variables and packed literals (`Var`, `Lit`);
* `src/formula.rs` — clauses, formulas, and the clause-rewriting DPLL
  solver (`Formula::solve` / `Formula::attempt_solve`);
* `src/solver.rs` — the watched-literal solver (`Context`, `assign`,
  `solve`).

Machine integers (`u32`, `isize`, `usize`) are modelled as `Nat` / `Int`;
the bounds checked by the Rust constructors are carried explicitly
(`Var.maxVarIndex`).  Hash maps and hash sets are modelled as association
lists and lists: lookup and overwrite semantics agree with the Rust
`HashMap`; the nondeterministic iteration order of `HashMap`/`HashSet` is
determinized to the insertion order recorded by the list.  Fallible Rust
functions returning `Result` are modelled with `Except`; `unwrap` calls
whose failure is unreachable for values built through the checked
constructors are modelled by total functions together with bridge lemmas
relating them to the checked constructors.
-/

/-- Error type of `src/errors.rs` (`LitError`). -/
inductive LitError where
  | InvalidDimacs : LitError
  | IndexTooLarge : LitError
deriving DecidableEq

/-- A boolean variable (`Var` in `src/literals.rs`), a wrapper around a
0-based index (`u32` in Rust, `Nat` here). -/
structure Var where
  index : Nat
deriving DecidableEq

/-- The largest supported variable index: `LitIndex::max_value() >> 2`
with `LitIndex = u32`, i.e. `(2^32 - 1) >>> 2`. -/
def Var.maxVarIndex : Nat := (2 ^ 32 - 1) / 4

/-- `Var::max_var()`: the variable with the largest supported index. -/
def Var.maxVar : Var := ⟨Var.maxVarIndex⟩

/-- `Var::from_index`: fails when the index exceeds `Var::max_var().index()`. -/
def Var.fromIndex (index : Nat) : Except LitError Var :=
  if index > Var.maxVarIndex then .error .IndexTooLarge else .ok ⟨index⟩

/-- `Var::from_dimacs`: 1-based DIMACS number to variable. -/
def Var.fromDimacs (number : Nat) : Except LitError Var :=
  if number = 0 then .error .InvalidDimacs else Var.fromIndex (number - 1)

/-- `Var::to_dimacs`: the 1-based DIMACS encoding (`isize` in Rust). -/
def Var.toDimacs (v : Var) : Int := (v.index : Int) + 1

/-- A literal (`Lit` in `src/literals.rs`): a packed code
`(var_index << 1) | polarity_bit`. -/
structure Lit where
  code : Nat
deriving DecidableEq

/-- `Lit::from_index`: packs an index and polarity, checking the bound. -/
def Lit.fromIndex (index : Nat) (polarity : Bool) : Except LitError Lit :=
  if index > Var.maxVarIndex then .error .IndexTooLarge
  else .ok ⟨2 * index + (if polarity then 1 else 0)⟩

/-- `Lit::index`: the 0-based index of the underlying variable (`code >> 1`). -/
def Lit.index (l : Lit) : Nat := l.code / 2

/-- `Lit::var`: the underlying variable. -/
def Lit.var (l : Lit) : Var := ⟨l.index⟩

/-- `Lit::polarity`: the low bit of the code (`(code & 1) == 1`). -/
def Lit.polarity (l : Lit) : Bool := l.code % 2 == 1

/-- `Lit::is_positive`. -/
def Lit.isPositive (l : Lit) : Bool := l.polarity

/-- `Lit::is_negative`. -/
def Lit.isNegative (l : Lit) : Bool := !l.polarity

/-- `Lit::from_dimacs`: the sign of the nonzero number gives the polarity,
`|n| - 1` the index (`number.is_positive()` is `number > 0` in Rust). -/
def Lit.fromDimacs (number : Int) : Except LitError Lit :=
  if number = 0 then .error .InvalidDimacs
  else Lit.fromIndex (number.natAbs - 1) (decide (0 < number))

/-- `Lit::to_dimacs`: `var().to_dimacs()` with the sign given by the polarity. -/
def Lit.toDimacs (l : Lit) : Int := l.var.toDimacs * (if l.isPositive then 1 else -1)

/-- `impl Not for Lit` (and `Lit::complement`):
`Lit::from_index(self.index(), !self.polarity()).unwrap()`.  The `unwrap`
cannot fail for literals built through the checked constructors (those
have `index ≤ maxVarIndex`, which `complement` preserves), so it is
modelled by the total pack; `Lit.complement_eq_fromIndex` below relates
this definition to the checked constructor. -/
def Lit.complement (l : Lit) : Lit := ⟨2 * l.index + (if !l.polarity then 1 else 0)⟩

/-- `Lit::from_var(var, polarity)`:
`Lit::from_index(var.index(), polarity).expect(..)`, total for the same
reason as `Lit.complement`; see `Lit.fromVar_eq_fromIndex`. -/
def Lit.fromVar (v : Var) (polarity : Bool) : Lit :=
  ⟨2 * v.index + (if polarity then 1 else 0)⟩

/-- `Var::positive`. -/
def Var.positive (v : Var) : Lit := Lit.fromVar v true

/-- `Var::negative`. -/
def Var.negative (v : Var) : Lit := Lit.fromVar v false

/-! ### Assignment maps

`formula.rs` uses `type Assignments = HashMap<Var, bool>`.  The hash map
is modelled as an association list with insert-overwrite semantics
(`insertA` removes the old binding for the key); `lookupL` is `HashMap::get`.
-/

/-- Association-list lookup, modelling `HashMap::get`. -/
def lookupL {β : Type} : List (Var × β) → Var → Option β
  | [], _ => none
  | (k, b) :: rest, v => if k = v then some b else lookupL rest v

/-- The `Assignments` alias of `formula.rs` (`HashMap<Var, bool>`). -/
abbrev Assignments := List (Var × Bool)

/-- `HashMap::contains_key`. -/
def containsKey (a : Assignments) (v : Var) : Bool := (lookupL a v).isSome

/-- `HashMap::insert`: overwrites any previous binding of the key. -/
def insertA (a : Assignments) (k : Var) (b : Bool) : Assignments :=
  (k, b) :: a.filter (fun p => !(p.1 == k))

/-- Keys of an association list are pairwise distinct.  This holds for
every map reachable from the empty `HashMap` by `insert`. -/
def NodupKeys {β : Type} (a : List (Var × β)) : Prop := (a.map Prod.fst).Nodup

/-! ### Clauses (`Clause` in `src/formula.rs`) -/

/-- A CNF clause: a `Vec` of literals. -/
structure Clause where
  literals : List Lit
deriving DecidableEq

/-- `Clause::new`. -/
def Clause.new : Clause := ⟨[]⟩

/-- `Clause::add_literal`: `self.literals.push(lit)`. -/
def Clause.addLiteral (c : Clause) (l : Lit) : Clause := ⟨c.literals ++ [l]⟩

/-- `Clause::remove_literal`: keeps the literals different from `lit`. -/
def Clause.removeLiteral (c : Clause) (l : Lit) : Clause :=
  ⟨c.literals.filter (fun m => !(m == l))⟩

/-- `Clause::contains_literal`. -/
def Clause.containsLiteral (c : Clause) (l : Lit) : Bool := c.literals.contains l

/-- `Clause::is_empty`. -/
def Clause.isEmpty (c : Clause) : Bool := c.literals.isEmpty

/-- `Clause::is_unit` exactly as written in `src/formula.rs`: it collects
the literals whose variable IS a key of `assignments` (despite the local
being named `unassigned`), and returns the head when exactly one literal
was collected. -/
def Clause.isUnit (c : Clause) (a : Assignments) : Option Lit :=
  let unassigned := c.literals.filter (fun l => containsKey a l.var)
  if unassigned.length = 1 then unassigned.head? else none

/-- Evaluation of a single literal under an assignment:
`some (value == polarity)` when the variable is assigned, else `none`. -/
def litEval (a : Assignments) (l : Lit) : Option Bool :=
  (lookupL a l.var).map (fun b => b == l.polarity)

/-- The unit-clause test as the specification words it (for comparison
with `Clause.isUnit`): `some ℓ` exactly when ℓ is the one literal of the
clause whose variable is unassigned and every other literal evaluates to
false under the assignment. -/
def Clause.isUnitSpec (c : Clause) (a : Assignments) : Option Lit :=
  match c.literals.filter (fun l => !(containsKey a l.var)) with
  | [u] =>
    if c.literals.all (fun l => (l == u) || (litEval a l == some false)) then some u
    else none
  | _ => none

/-- Loop body of `Clause::evaluate`, threading the `decided` flag. -/
def Clause.evaluateGo (a : Assignments) : List Lit → Bool → Option Bool
  | [], decided => if decided then some false else none
  | l :: ls, decided =>
    match lookupL a l.var with
    | some b => if b == l.polarity then some true else Clause.evaluateGo a ls decided
    | none => Clause.evaluateGo a ls false

/-- `Clause::evaluate`: `some true` as soon as a literal is true, `some
false` when all literals are assigned and false, `none` otherwise. -/
def Clause.evaluate (c : Clause) (a : Assignments) : Option Bool :=
  Clause.evaluateGo a c.literals true

/-- `impl From<IntoIterator<Item = Into<Lit>>> for Clause`: starts from an
empty clause and `add_literal`s each element in order. -/
def Clause.ofList (ls : List Lit) : Clause := ls.foldl Clause.addLiteral Clause.new

/-! ### Formulas (`Formula` in `src/formula.rs`) -/

/-- A CNF formula: a `Vec` of clauses plus a `HashSet` of variables.  The
hash set is modelled as an insertion-ordered duplicate-free list; its
nondeterministic iteration (`variables.iter().next()`) is determinized to
the head of the list. -/
structure Formula where
  clauses : List Clause
  vars : List Var
deriving DecidableEq

/-- `Formula::new` (`Formula::default`). -/
def Formula.new : Formula := ⟨[], []⟩

/-- `HashSet::insert` on the variable set: a no-op when present. -/
def insertVar (vs : List Var) (v : Var) : List Var := if v ∈ vs then vs else vs ++ [v]

/-- `Formula::add_clause`: inserts every literal's variable, then pushes
the clause.  No duplicate or tautology check is performed. -/
def Formula.addClause (f : Formula) (c : Clause) : Formula :=
  ⟨f.clauses ++ [c], c.literals.foldl (fun vs l => insertVar vs l.var) f.vars⟩

/-- A formula built by a sequence of `add_clause` calls on `Formula::new`,
the construction path offered by the public API. -/
def Formula.ofClauses (cs : List Clause) : Formula := cs.foldl Formula.addClause Formula.new

/-- The `HashMap` that `Formula::evaluate` builds from its `Vec` argument
by inserting the pairs in order (later bindings overwrite earlier ones). -/
def hmOf (assignments : List (Var × Bool)) : Assignments :=
  assignments.foldl (fun m p => insertA m p.1 p.2) []

/-- Loop body of `Formula::evaluate`, threading the `decided` flag. -/
def Formula.evaluateGo (a : Assignments) : List Clause → Bool → Option Bool
  | [], decided => if decided then some true else none
  | c :: cs, decided =>
    match c.evaluate a with
    | some true => Formula.evaluateGo a cs decided
    | some false => some false
    | none => Formula.evaluateGo a cs false

/-- `Formula::evaluate`. -/
def Formula.evaluate (f : Formula) (assignments : List (Var × Bool)) : Option Bool :=
  Formula.evaluateGo (hmOf assignments) f.clauses true

/-- `Formula::find_unit`: the first clause reporting a unit literal. -/
def Formula.findUnit (f : Formula) (a : Assignments) : Option Lit :=
  f.clauses.findSome? (fun c => c.isUnit a)

/-- Loop body of `Formula::pure_literals`: pushes each literal whose
complement never occurs and which was not already collected. -/
def pureGo (all : List Lit) : List Lit → List Lit → List Lit
  | [], acc => acc
  | l :: ls, acc =>
    if !(all.contains l.complement) && !(acc.contains l)
    then pureGo all ls (acc ++ [l])
    else pureGo all ls acc

/-- `Formula::pure_literals`: literals occurring with only one polarity. -/
def Formula.pureLiterals (f : Formula) : List Lit :=
  let literals := (f.clauses.map Clause.literals).flatten
  pureGo literals literals []

/-- `Formula::propogate_literal`: drops clauses containing the literal,
removes the literal's complement from the rest, and removes the variable
from the variable set. -/
def Formula.propogateLiteral (f : Formula) (l : Lit) : Formula :=
  ⟨(f.clauses.filter (fun c => !(c.containsLiteral l))).map (fun c => c.removeLiteral l.complement),
   f.vars.filter (fun v => !(v == l.var))⟩

/-- Total number of clauses plus literal occurrences; each firing
iteration of the propagation loop strictly decreases it, which bounds the
number of loop iterations. -/
def Formula.totalSize (f : Formula) : Nat :=
  f.clauses.length + (f.clauses.map (fun c => c.literals.length)).sum

/-- The unit-propagation step of the loop in `Formula::attempt_solve`:
`assignments.insert(unit_lit.var(), unit_lit.polarity())` followed by
`propogate_literal`, or `none` when no unit is found. -/
def unitStep (f : Formula) (a : Assignments) : Option (Formula × Assignments) :=
  match f.findUnit a with
  | some u => some (f.propogateLiteral u, insertA a u.var u.polarity)
  | none => none

/-- The pure-literal step of the loop in `Formula::attempt_solve`:
fires on the first pure literal when its variable is unassigned.
Returns `none` when the step leaves the state unchanged (no pure literal,
or its variable already assigned), matching `changed` staying false. -/
def pureStep (f : Formula) (a : Assignments) : Option (Formula × Assignments) :=
  match (f.pureLiterals).head? with
  | some p =>
    if containsKey a p.var then none
    else some (f.propogateLiteral p, insertA a p.var p.polarity)
  | none => none

/-- The `loop` at the top of `Formula::attempt_solve`, with explicit
iteration fuel: run the unit step then the pure step; repeat while either
fired (`changed`).  `bcpLoopF_fuel_irrelevant` below shows that any fuel
above `Formula.totalSize` computes the loop's true fixpoint, so the fuel
is an artifact of the embedding, not of the Rust loop. -/
def bcpLoopF : Nat → Formula → Assignments → Formula × Assignments
  | 0, f, a => (f, a)
  | n+1, f, a =>
    match unitStep f a with
    | some (f1, a1) =>
      match pureStep f1 a1 with
      | some (f2, a2) => bcpLoopF n f2 a2
      | none => bcpLoopF n f1 a1
    | none =>
      match pureStep f a with
      | some (f2, a2) => bcpLoopF n f2 a2
      | none => (f, a)

/-- The propagation loop of `Formula::attempt_solve` run to fixpoint. -/
def Formula.bcp (f : Formula) (a : Assignments) : Formula × Assignments :=
  bcpLoopF (f.totalSize + 1) f a

/-- Result of a solver run.  `sat`/`unsat` are `Some`/`None` of the Rust
`Option`; `panicked` marks the `unwrap` on an empty variable set in
`Formula::attempt_solve` (or exhausted recursion fuel, shown unreachable
when the fuel exceeds the number of variables). -/
inductive SolveResult where
  | sat : Assignments → SolveResult
  | unsat : SolveResult
  | panicked : SolveResult
deriving DecidableEq

/-- `Formula::attempt_solve` with explicit recursion fuel, consumed once
per recursive call.  `attemptSolve_fuel_irrelevant` below shows any fuel
above `f.vars.length` yields the same result, reflecting that the
recursion depth of the Rust function is bounded by the number of
variables. -/
def attemptSolveF : Nat → Formula → Assignments → SolveResult
  | 0, _, _ => .panicked
  | fuel+1, f0, a0 =>
    let p := f0.bcp a0
    if p.1.clauses.isEmpty then .sat p.2
    else if p.1.clauses.any (fun c => c.isEmpty) then .unsat
    else
      match p.1.vars.head? with
      | none => .panicked
      | some v =>
        match attemptSolveF fuel (p.1.propogateLiteral (Lit.fromVar v true)) (insertA p.2 v true) with
        | .sat s => .sat s
        | .panicked => .panicked
        | .unsat =>
          match attemptSolveF fuel (p.1.propogateLiteral (Lit.fromVar v false)) (insertA p.2 v false) with
          | .sat s => .sat s
          | .panicked => .panicked
          | .unsat => .unsat

/-- `Formula::solve`: runs `attempt_solve` on a fresh assignment map and
returns the solution as a vector of pairs sorted by variable index.  The
fuel `f.vars.length + 1` is justified by
`attemptSolve_fuel_irrelevant`; a (for well-formed formulas unreachable,
see `attemptSolve_no_panic`) panicked run maps to `none`. -/
def Formula.solve (f : Formula) : Option (List (Var × Bool)) :=
  match attemptSolveF (f.vars.length + 1) f [] with
  | .sat a => some (List.insertionSort (fun p q => p.1.index ≤ q.1.index) a)
  | _ => none

/-! ### Semantic predicates for the formula-level solver -/

/-- Every clause of `f` has a literal made true by the partial assignment `s`. -/
def SatBy (s : Assignments) (f : Formula) : Prop :=
  ∀ c ∈ f.clauses, ∃ l ∈ c.literals, lookupL s l.var = some l.polarity

/-- Every clause of `f` has a literal made true by the total assignment `t`. -/
def SatT (t : Var → Bool) (f : Formula) : Prop :=
  ∀ c ∈ f.clauses, ∃ l ∈ c.literals, t l.var = l.polarity

/-- The total assignment `t` agrees with the partial assignment `a`. -/
def Consistent (t : Var → Bool) (a : Assignments) : Prop :=
  ∀ v b, lookupL a v = some b → t v = b

/-- The partial assignment `s` extends the partial assignment `a`. -/
def Extends (a s : Assignments) : Prop :=
  ∀ v b, lookupL a v = some b → lookupL s v = some b

/-- No variable mentioned by a clause, and no variable in the variable
set, is assigned.  This holds at the top-level call of `attempt_solve`
(the assignment is empty) and is preserved by its steps. -/
def InvDisj (f : Formula) (a : Assignments) : Prop :=
  (∀ c ∈ f.clauses, ∀ l ∈ c.literals, lookupL a l.var = none) ∧
  (∀ v ∈ f.vars, lookupL a v = none)

/-- Every variable occurring in a clause is a member of the variable set
(the implicit invariant maintained by `add_clause` and
`propogate_literal`). -/
def Formula.VarsInvariant (f : Formula) : Prop :=
  ∀ c ∈ f.clauses, ∀ l ∈ c.literals, l.var ∈ f.vars

/-- Some total assignment satisfies every clause. -/
def Formula.Satisfiable (f : Formula) : Prop := ∃ t : Var → Bool, SatT t f

/-! ### The watched-literal solver (`src/solver.rs`)

`src/solver.rs` imports `crate::Assignment` and calls `Lit::evaluate`,
neither of which is present under `src/` (`lib.rs` declares only the
`errors`, `formula` and `literals` modules).  Those two are modelled from
the spec below; everything else follows `src/solver.rs`.
-/

/-- Modelled from the spec: the `Assignment` type used by `src/solver.rs`
is missing from the sources (only its callers are under `src/`).  Spec
§4.3: a partial variable-to-boolean map backed by a hash map, with
`contains(v)`, `set(v, b)` (last-writer-wins) and
`evaluate(ℓ) = some (polarity == assigned value)` when `var(ℓ)` is
assigned, else `none`.  Modelled as an association list like
`Assignments`. -/
abbrev Assignment := List (Var × Bool)

/-- Modelled from the spec (§4.3): `Assignment::set`. -/
def Assignment.set (a : Assignment) (v : Var) (b : Bool) : Assignment := insertA a v b

/-- Modelled from the spec (§4.3): `Assignment::contains`. -/
def Assignment.contains (a : Assignment) (v : Var) : Bool := (lookupL a v).isSome

/-- Modelled from the spec (§4.3): `Assignment::evaluate`. -/
def Assignment.evaluate (a : Assignment) (l : Lit) : Option Bool :=
  (lookupL a l.var).map (fun b => b == l.polarity)

/-- Modelled from the spec: `Lit::evaluate(value)` is called by
`src/solver.rs` on the just-assigned value but is not defined under
`src/`.  Spec §`assign`, `Unit` case: the clause transitions to
`Complete(ℓ.polarity == value)`. -/
def Lit.evaluate (l : Lit) (value : Bool) : Bool := l.polarity == value

/-- The per-variable polarity tally of `src/solver.rs`. -/
inductive LitPolarities where
  | TrueOnly : LitPolarities
  | FalseOnly : LitPolarities
  | Both : LitPolarities
deriving DecidableEq

/-- The per-clause state of `src/solver.rs`. -/
inductive ClauseState where
  | Watching : Lit → Lit → ClauseState
  | Unit : Lit → ClauseState
  | Complete : Bool → ClauseState
deriving DecidableEq

/-- The search context of `src/solver.rs`.  The `HashMap` of unassigned
variables is modelled as an insertion-ordered association list. -/
structure Context where
  formula : Formula
  assignment : Assignment
  unassignedVariables : List (Var × LitPolarities)
  clauseStates : List ClauseState
deriving DecidableEq

/-- `HashMap::insert` for the polarity tally: replaces the binding in
place when present, appends otherwise. -/
def insertP : List (Var × LitPolarities) → Var → LitPolarities → List (Var × LitPolarities)
  | [], v, p => [(v, p)]
  | (k, q) :: rest, v, p => if k = v then (k, p) :: rest else (k, q) :: insertP rest v p

/-- The polarity-tally update performed by `Context::new` for one literal. -/
def updatePolarities (m : List (Var × LitPolarities)) (l : Lit) : List (Var × LitPolarities) :=
  match lookupL m l.var with
  | some polarities =>
    if (match polarities with
        | .TrueOnly => l.isNegative
        | .FalseOnly => l.isPositive
        | .Both => true)
    then insertP m l.var .Both else m
  | none => insertP m l.var (if l.polarity then .TrueOnly else .FalseOnly)

/-- The initial per-clause state chosen by `Context::new` from the
clause's length: empty, unit, or watching the first two literals. -/
def initState (c : Clause) : ClauseState :=
  match c.literals with
  | [] => .Complete false
  | [a] => .Unit a
  | a :: b :: _ => .Watching a b

/-- `Context::new`. -/
def Context.new (f : Formula) : Context :=
  { formula := f
    assignment := []
    unassignedVariables := f.clauses.foldl (fun m c => c.literals.foldl updatePolarities m) []
    clauseStates := f.clauses.map initState }

/-- Result of the replacement-watch scan inside `Context::assign`. -/
inductive ScanRes where
  | completeTrue : ScanRes
  | newLit : Option Lit → ScanRes
deriving DecidableEq

/-- The `for lit in clause.literals()` scan of `Context::assign`: stops
with `Complete(true)` on a true literal; otherwise remembers the last
unassigned literal whose variable differs from the still-watched one. -/
def scanClause (asg : Assignment) (other : Lit) : List Lit → Option Lit → ScanRes
  | [], acc => .newLit acc
  | l :: ls, acc =>
    match Assignment.evaluate asg l with
    | some true => .completeTrue
    | some false => scanClause asg other ls acc
    | none =>
      if l.var ≠ other.var then scanClause asg other ls (some l)
      else scanClause asg other ls acc

/-- The per-clause state machine of `Context::assign` (`asg` is the
assignment after `set`); the boolean is the conflict flag. -/
def stepState (asg : Assignment) (v : Var) (value : Bool) (c : Clause) :
    ClauseState → ClauseState × Bool
  | .Watching a b =>
    if a.var ≠ v ∧ b.var ≠ v then (.Watching a b, false)
    else if (Assignment.evaluate asg a).getD false || (Assignment.evaluate asg b).getD false
    then (.Complete true, false)
    else
      let other := if a.var = v then b else a
      match scanClause asg other c.literals none with
      | .completeTrue => (.Complete true, false)
      | .newLit (some nl) => (.Watching other nl, false)
      | .newLit none => (.Unit other, false)
  | .Unit l =>
    if l.var = v then
      (if l.evaluate value then (.Complete true, false) else (.Complete false, true))
    else (.Unit l, false)
  | .Complete sat =>
    if sat then (.Complete sat, false) else (.Complete sat, true)

/-- The clause loop of `Context::assign`: visits the zipped clauses and
states in order, short-circuiting on the first conflict (later states are
left unchanged, as by the early `return true`). -/
def assignLoop (asg : Assignment) (v : Var) (value : Bool) :
    List (Clause × ClauseState) → List ClauseState × Bool
  | [] => ([], false)
  | (c, s) :: rest =>
    let r := stepState asg v value c s
    if r.2 then (r.1 :: rest.map Prod.snd, true)
    else
      let rest' := assignLoop asg v value rest
      (r.1 :: rest'.1, rest'.2)

/-- `Context::assign`: records the assignment, removes the variable from
the unassigned set, then runs the clause state machine.  The boolean is
true when the assignment made a clause unsatisfied. -/
def Context.assign (ctx : Context) (v : Var) (value : Bool) : Context × Bool :=
  let asg := Assignment.set ctx.assignment v value
  let unas := ctx.unassignedVariables.filter (fun p => !(p.1 == v))
  let r := assignLoop asg v value (ctx.formula.clauses.zip ctx.clauseStates)
  ({ ctx with assignment := asg, unassignedVariables := unas, clauseStates := r.1 }, r.2)

/-- `Context::assign_lit`. -/
def Context.assignLit (ctx : Context) (l : Lit) : Context × Bool :=
  ctx.assign l.var l.polarity

/-- `Context::get_unit_lit`. -/
def Context.getUnitLit (ctx : Context) : Option Lit :=
  ctx.clauseStates.findSome? (fun s => match s with | .Unit l => some l | _ => none)

/-- `Context::get_pure_lit`. -/
def Context.getPureLit (ctx : Context) : Option Lit :=
  ctx.unassignedVariables.findSome? (fun p =>
    match p.2 with
    | .TrueOnly => some p.1.positive
    | .FalseOnly => some p.1.negative
    | .Both => none)

/-- `Context::get_unassigned_var`. -/
def Context.getUnassignedVar (ctx : Context) : Option Var :=
  ctx.unassignedVariables.head?.map Prod.fst

/-- The `all_true` scan of `solver.rs::attempt_solve`: walks the clause
states, hitting `unreachable!` (modelled as `none`) on `Complete(false)`
and stopping with `false` at the first other non-`Complete(true)` state. -/
def allTrueCheck : List ClauseState → Option Bool
  | [] => some true
  | s :: rest =>
    match s with
    | .Complete true => allTrueCheck rest
    | .Complete false => none
    | _ => some false

/-- One iteration of the `loop` in `solver.rs::attempt_solve`: the unit
step then the pure step; `none` when a conflicting `assign` makes the
function return `None`, otherwise the new context and the `changed` flag. -/
def loopIter (ctx : Context) : Option (Context × Bool) :=
  match ctx.getUnitLit with
  | some u =>
    let r := ctx.assignLit u
    if r.2 then none
    else
      match r.1.getPureLit with
      | some p =>
        let r2 := r.1.assignLit p
        if r2.2 then none else some (r2.1, true)
      | none => some (r.1, true)
  | none =>
    match ctx.getPureLit with
    | some p =>
      let r2 := ctx.assignLit p
      if r2.2 then none else some (r2.1, true)
    | none => some (ctx, false)

/-- `solver.rs::attempt_solve` with explicit fuel, consumed once per loop
iteration or recursive call; exhausted fuel and the two `unreachable!`
sites map to `panicked`.  A conflicting branch `assign` makes the loop
`continue` to the other branch; both failing yields `unsat`. -/
def attemptSolveCtx : Nat → Context → SolveResult
  | 0, _ => .panicked
  | fuel+1, ctx =>
    match loopIter ctx with
    | none => .unsat
    | some (ctx1, changed) =>
      if changed then
        match allTrueCheck ctx1.clauseStates with
        | none => .panicked
        | some true => .sat ctx1.assignment
        | some false => attemptSolveCtx fuel ctx1
      else
        match ctx1.getUnassignedVar with
        | none => .sat ctx1.assignment
        | some v =>
          let rT := ctx1.assign v true
          let resT : SolveResult :=
            if rT.2 then .unsat
            else
              match allTrueCheck rT.1.clauseStates with
              | none => .panicked
              | some true => .sat rT.1.assignment
              | some false => attemptSolveCtx fuel rT.1
          match resT with
          | .sat s => .sat s
          | .panicked => .panicked
          | .unsat =>
            let rF := ctx1.assign v false
            if rF.2 then .unsat
            else
              match allTrueCheck rF.1.clauseStates with
              | none => .panicked
              | some true => .sat rF.1.assignment
              | some false => attemptSolveCtx fuel rF.1

/-- `solver.rs::solve`: returns `unsat` (`None`) outright on an empty
clause list, otherwise solves from a fresh context.  `sat`/`unsat`
correspond to `Some`/`None` of the Rust `Option<Assignment>`. -/
def solverSolve (fuel : Nat) (f : Formula) : SolveResult :=
  if f.clauses.isEmpty then .unsat
  else attemptSolveCtx fuel (Context.new f)

/-- Solver states reachable at rest: the fresh context of a formula,
closed under non-conflicting `assign` calls. -/
inductive ReachableCtx (f : Formula) : Context → Prop where
  | base : ReachableCtx f (Context.new f)
  | step : ∀ {ctx : Context} (v : Var) (b : Bool), ReachableCtx f ctx →
      (ctx.assign v b).2 = false → ReachableCtx f (ctx.assign v b).1

/-- Every clause has pairwise-distinct variables: the construction
contract of spec §3 (no duplicate literal, no literal with its
complement). -/
def GoodFormula (f : Formula) : Prop :=
  ∀ c ∈ f.clauses, c.literals.Pairwise (fun l m => l.var ≠ m.var)

/-- Measure for the propagation loop: number of clauses plus number of
literal occurrences (`Formula.totalSize` on a bare clause list). -/
def clausesSize (cs : List Clause) : Nat :=
  cs.length + (cs.map (fun c => c.literals.length)).sum

/-- The watched-literal well-formedness of one clause state: watched
literals have distinct variables and neither evaluates to false. -/
def WatchOK (asg : Assignment) (s : ClauseState) : Prop :=
  ∀ a b, s = ClauseState.Watching a b → a.var ≠ b.var ∧
    asg.evaluate a ≠ some false ∧ asg.evaluate b ≠ some false

theorem Lit.code_div_two (l : Lit) :
    l.code = 2 * l.index + (if l.polarity then 1 else 0) := by
  simp only [Lit.index, Lit.polarity]
  rcases Nat.mod_two_eq_zero_or_one l.code with h | h <;> simp [h] <;> omega

theorem Lit.ext_varPol {l m : Lit} (hv : l.var = m.var) (hp : l.polarity = m.polarity) :
    l = m := by
  have hidx : l.index = m.index := congrArg Var.index hv
  have h1 := Lit.code_div_two l
  have h2 := Lit.code_div_two m
  have hc : l.code = m.code := by rw [h1, h2, hidx, hp]
  cases l; cases m; simpa using hc

theorem Lit.fromVar_index (v : Var) (b : Bool) : (Lit.fromVar v b).index = v.index := by
  simp only [Lit.fromVar, Lit.index]
  cases b <;> simp <;> omega

theorem Lit.fromVar_var (v : Var) (b : Bool) : (Lit.fromVar v b).var = v := by
  simp only [Lit.var, Lit.fromVar_index]

theorem Lit.fromVar_polarity (v : Var) (b : Bool) : (Lit.fromVar v b).polarity = b := by
  simp only [Lit.fromVar, Lit.polarity]
  cases b <;> simp <;> omega

theorem Lit.complement_index (l : Lit) : l.complement.index = l.index := by
  simp only [Lit.complement, Lit.index, Lit.polarity]
  rcases Nat.mod_two_eq_zero_or_one l.code with h | h <;> simp [h] <;> omega

theorem Lit.complement_var (l : Lit) : l.complement.var = l.var := by
  simp only [Lit.var, Lit.complement_index]

theorem Lit.complement_polarity (l : Lit) : l.complement.polarity = !l.polarity := by
  simp only [Lit.complement, Lit.polarity, Lit.index]
  rcases Nat.mod_two_eq_zero_or_one l.code with h | h
  · have h2 : (2 * (l.code / 2) + 1) % 2 = 1 := by omega
    simp [h, h2]
  · have h2 : (2 * (l.code / 2) + 0) % 2 = 0 := by omega
    simp [h, h2]

theorem Lit.complement_complement (l : Lit) : l.complement.complement = l := by
  exact Lit.ext_varPol (by simp [Lit.complement_var]) (by simp [Lit.complement_polarity])

/-- Bridge lemma: for literals within the checked range, `Lit.complement`
agrees with `Lit::from_index(index, !polarity)` (whose `unwrap` succeeds). -/
theorem Lit.complement_eq_fromIndex {l : Lit} (h : l.index ≤ Var.maxVarIndex) :
    Lit.fromIndex l.index (!l.polarity) = .ok l.complement := by
  simp [Lit.fromIndex, Nat.not_lt.mpr h, Lit.complement]

/-- Bridge lemma: for variables within the checked range, `Lit.fromVar`
agrees with `Lit::from_index(var.index(), polarity)` (whose `expect` succeeds). -/
theorem Lit.fromVar_eq_fromIndex {v : Var} (h : v.index ≤ Var.maxVarIndex) (b : Bool) :
    Lit.fromIndex v.index b = .ok (Lit.fromVar v b) := by
  simp [Lit.fromIndex, Nat.not_lt.mpr h, Lit.fromVar]

theorem Lit.eq_complement_of_var_eq {l m : Lit} (hv : m.var = l.var)
    (hp : m.polarity = !l.polarity) : m = l.complement := by
  apply Lit.ext_varPol
  · rw [hv, Lit.complement_var]
  · rw [hp, Lit.complement_polarity]

theorem Lit.eq_of_var_eq_polarity_eq {l m : Lit} (hv : m.var = l.var)
    (hp : m.polarity = l.polarity) : m = l :=
  Lit.ext_varPol hv hp

theorem lookupL_filter_ne {β : Type} (a : List (Var × β)) {v k : Var} (h : v ≠ k) :
    lookupL (a.filter (fun p => !(p.1 == k))) v = lookupL a v := by
  induction a with
  | nil => rfl
  | cons p rest ih =>
    rcases p with ⟨pk, pb⟩
    by_cases hk : pk = k
    · have hc : (!(pk == k)) = false := by simp [hk]
      simp only [List.filter_cons, hc, if_neg Bool.false_ne_true, ih]
      have hne : pk ≠ v := fun hh => h (hk ▸ hh.symm ▸ rfl)
      simp [lookupL, hne]
    · have hc : (!(pk == k)) = true := by simp [hk]
      simp only [List.filter_cons, hc, if_pos rfl]
      by_cases hv : pk = v <;> simp [lookupL, hv, ih]

theorem lookupL_insert_self (a : Assignments) (k : Var) (b : Bool) :
    lookupL (insertA a k b) k = some b := by
  simp [insertA, lookupL]

theorem lookupL_insert_ne (a : Assignments) {v k : Var} (b : Bool) (h : v ≠ k) :
    lookupL (insertA a k b) v = lookupL a v := by
  simp only [insertA, lookupL]
  rw [if_neg (fun hh => h hh.symm)]
  exact lookupL_filter_ne a h

theorem insertA_nodupKeys {a : Assignments} (h : NodupKeys a) (k : Var) (b : Bool) :
    NodupKeys (insertA a k b) := by
  unfold NodupKeys insertA
  simp only [List.map_cons, List.nodup_cons]
  constructor
  · intro hmem
    rcases List.mem_map.mp hmem with ⟨p, hp, hfst⟩
    have := List.of_mem_filter hp
    simp [hfst] at this
  · exact (h.sublist ((List.filter_sublist a).map Prod.fst))

theorem nodupKeys_nil : NodupKeys ([] : Assignments) := by
  simp [NodupKeys]

theorem lookupL_eq_of_perm {β : Type} {a b : List (Var × β)} (hp : a.Perm b)
    (hn : NodupKeys a) : ∀ v, lookupL a v = lookupL b v := by
  induction hp with
  | nil => intro v; rfl
  | cons x hperm ih =>
    intro v
    rcases x with ⟨xk, xb⟩
    have hn2 : NodupKeys _ := (List.nodup_cons.mp hn).2
    by_cases hx : xk = v <;> simp [lookupL, hx, ih hn2 v]
  | swap x y l =>
    intro v
    rcases x with ⟨xk, xb⟩
    rcases y with ⟨yk, yb⟩
    have h1 : yk ≠ xk := by
      have := (List.nodup_cons.mp hn).1
      intro he
      exact this (by simp [← he])
    by_cases hx : xk = v <;> by_cases hy : yk = v <;> simp_all [lookupL]
  | trans h1 h2 ih1 ih2 =>
    intro v
    have hn2 := ((h1.map Prod.fst).nodup_iff).mp hn
    rw [ih1 hn v, ih2 hn2 v]

theorem Clause.ofList_go (ls : List Lit) (acc : List Lit) :
    (ls.foldl Clause.addLiteral ⟨acc⟩).literals = acc ++ ls := by
  induction ls generalizing acc with
  | nil => simp
  | cons l ls ih => simp [List.foldl_cons, Clause.addLiteral, ih]

theorem Clause.ofList_literals (ls : List Lit) : (Clause.ofList ls).literals = ls := by
  simpa [Clause.ofList, Clause.new] using Clause.ofList_go ls []

theorem Clause.evaluateGo_eq_some_true (a : Assignments) (ls : List Lit) :
    ∀ d, Clause.evaluateGo a ls d = some true ↔
      ∃ l ∈ ls, lookupL a l.var = some l.polarity := by
  induction ls with
  | nil => intro d; cases d <;> simp [Clause.evaluateGo]
  | cons l ls ih =>
    intro d
    cases hl : lookupL a l.var with
    | none =>
      simp only [Clause.evaluateGo, hl, List.mem_cons]
      rw [ih false]
      constructor
      · rintro ⟨m, hm, hv⟩; exact ⟨m, Or.inr hm, hv⟩
      · rintro ⟨m, rfl | hm, hv⟩
        · rw [hl] at hv; cases hv
        · exact ⟨m, hm, hv⟩
    | some b =>
      simp only [Clause.evaluateGo, hl, List.mem_cons]
      by_cases hb : b = l.polarity
      · subst hb
        rw [if_pos (by simp)]
        constructor
        · intro _; exact ⟨l, Or.inl rfl, hl⟩
        · intro _; rfl
      · have hbeq : (b == l.polarity) = false := by simp [hb]
        rw [hbeq]
        simp only [Bool.false_eq_true, if_false]
        rw [ih d]
        constructor
        · rintro ⟨m, hm, hv⟩; exact ⟨m, Or.inr hm, hv⟩
        · rintro ⟨m, rfl | hm, hv⟩
          · rw [hl] at hv; exact absurd (Option.some.inj hv) hb
          · exact ⟨m, hm, hv⟩

/-- A clause evaluates to `some true` exactly when one of its literals is
true under the assignment. -/
theorem Clause.evaluate_eq_some_true (c : Clause) (a : Assignments) :
    c.evaluate a = some true ↔ ∃ l ∈ c.literals, lookupL a l.var = some l.polarity :=
  Clause.evaluateGo_eq_some_true a c.literals true

/-! ### Claim theorems: literal algebra and clause construction -/

/-- C9: complement is an involution — for every literal ℓ,
`complement(complement(ℓ)) = ℓ`, `var(complement(ℓ)) = var(ℓ)`, and
`polarity(complement(ℓ)) = !polarity(ℓ)`. -/
theorem lit_complement_involution (l : Lit) :
    l.complement.complement = l ∧ l.complement.var = l.var ∧
      l.complement.polarity = (!l.polarity) :=
  ⟨Lit.complement_complement l, Lit.complement_var l, Lit.complement_polarity l⟩

/-- C8: DIMACS round-trip — for every nonzero integer `n` whose absolute
value minus one is at most the maximum variable index,
`Lit::from_dimacs(n)` succeeds and `to_dimacs` returns `n`. -/
theorem lit_fromDimacs_toDimacs (n : Int) (h0 : n ≠ 0)
    (h1 : n.natAbs - 1 ≤ Var.maxVarIndex) :
    ∃ l, Lit.fromDimacs n = .ok l ∧ l.toDimacs = n := by
  refine ⟨⟨2 * (n.natAbs - 1) + (if decide (0 < n) then 1 else 0)⟩, ?_, ?_⟩
  · simp only [Lit.fromDimacs, if_neg h0, Lit.fromIndex, gt_iff_lt]
    rw [if_neg (Nat.not_lt.mpr h1)]
  · have hA : 0 < n.natAbs := Int.natAbs_pos.mpr h0
    by_cases hpos : 0 < n
    · have hcode : (if decide (0 < n) then 1 else 0) = 1 := by
        rw [decide_eq_true hpos]; simp
      rw [hcode]
      have hidx : (Lit.mk (2 * (n.natAbs - 1) + 1)).index = n.natAbs - 1 := by
        simp only [Lit.index]; omega
      have hpol : (Lit.mk (2 * (n.natAbs - 1) + 1)).polarity = true := by
        simp only [Lit.polarity]
        have hm : (2 * (n.natAbs - 1) + 1) % 2 = 1 := by omega
        simp [hm]
      simp [Lit.toDimacs, Lit.isPositive, hpol, Lit.var, hidx, Var.toDimacs]
      omega
    · have hcode : (if decide (0 < n) then 1 else 0) = 0 := by
        rw [decide_eq_false hpos]; simp
      rw [hcode, Nat.add_zero]
      have hidx : (Lit.mk (2 * (n.natAbs - 1))).index = n.natAbs - 1 := by
        simp only [Lit.index]; omega
      have hpol : (Lit.mk (2 * (n.natAbs - 1))).polarity = false := by
        simp only [Lit.polarity]
        have hm : (2 * (n.natAbs - 1)) % 2 = 0 := by omega
        simp [hm]
      simp [Lit.toDimacs, Lit.isPositive, hpol, Lit.var, hidx, Var.toDimacs]
      omega

/-- Witness for C8 at the concrete input `n = -3`. -/
theorem lit_fromDimacs_toDimacs_witness :
    ((-3 : Int) ≠ 0) ∧ ((-3 : Int).natAbs - 1 ≤ Var.maxVarIndex) ∧
      (∃ l, Lit.fromDimacs (-3) = .ok l ∧ l.toDimacs = -3) :=
  ⟨by decide, by decide, lit_fromDimacs_toDimacs (-3) (by decide) (by decide)⟩

/-- C5: `Clause::is_unit` contradicts its own documentation ("contains
exactly one unassigned literal") and the spec: the filter keeps the
literals whose variable IS assigned.  On the clause `(x₁ ∨ x₂)` with
`x₁ ↦ false`, the spec mandates `some x₂` (one unassigned literal, the
other false), but the code returns `some x₁`, the assigned one. -/
theorem isUnit_filters_assigned_literals :
    Clause.isUnit (Clause.ofList [Lit.fromVar ⟨0⟩ true, Lit.fromVar ⟨1⟩ true]) [(⟨0⟩, false)]
      = some (Lit.fromVar ⟨0⟩ true)
    ∧ Clause.isUnitSpec (Clause.ofList [Lit.fromVar ⟨0⟩ true, Lit.fromVar ⟨1⟩ true]) [(⟨0⟩, false)]
      = some (Lit.fromVar ⟨1⟩ true)
    ∧ Lit.fromVar ⟨0⟩ true ≠ Lit.fromVar ⟨1⟩ true := by decide

/-- C6 counterexample: the construction API performs no rejection or
normalization — `add_literal` called twice with the same literal yields a
clause containing it twice, `From` yields a clause containing a literal
together with its complement, and `add_clause` passes such a clause to
the formula unchanged. -/
theorem clause_construction_counterexample :
    ((Clause.new.addLiteral (Lit.fromVar ⟨0⟩ true)).addLiteral (Lit.fromVar ⟨0⟩ true)).literals
      = [Lit.fromVar ⟨0⟩ true, Lit.fromVar ⟨0⟩ true]
    ∧ (Clause.ofList [Lit.fromVar ⟨0⟩ true, (Lit.fromVar ⟨0⟩ true).complement]).containsLiteral
        (Lit.fromVar ⟨0⟩ true) = true
    ∧ (Clause.ofList [Lit.fromVar ⟨0⟩ true, (Lit.fromVar ⟨0⟩ true).complement]).containsLiteral
        ((Lit.fromVar ⟨0⟩ true).complement) = true
    ∧ (Formula.ofClauses [Clause.ofList [Lit.fromVar ⟨0⟩ true, (Lit.fromVar ⟨0⟩ true).complement]]).clauses
      = [Clause.ofList [Lit.fromVar ⟨0⟩ true, (Lit.fromVar ⟨0⟩ true).complement]] := by decide

/-- C6 amended: the construction API performs no rejection or
normalization at all — `add_literal` appends its argument unconditionally
and conversion from an iterable of literals retains every element in
order, so duplicate and complementary literals are preserved. -/
theorem clause_construction_no_normalization (c : Clause) (l : Lit) (ls : List Lit) :
    (c.addLiteral l).literals = c.literals ++ [l] ∧ (Clause.ofList ls).literals = ls :=
  ⟨rfl, Clause.ofList_literals ls⟩

/-! ### Lemmas about `propogate_literal` and the propagation measures -/

theorem Clause.containsLiteral_iff (c : Clause) (l : Lit) :
    c.containsLiteral l = true ↔ l ∈ c.literals := by
  simp [Clause.containsLiteral]

theorem Clause.mem_removeLiteral {c : Clause} {l m : Lit} :
    m ∈ (c.removeLiteral l).literals ↔ m ∈ c.literals ∧ m ≠ l := by
  simp [Clause.removeLiteral, List.mem_filter]

theorem mem_propogate {f : Formula} {l : Lit} {c' : Clause}
    (h : c' ∈ (f.propogateLiteral l).clauses) :
    ∃ c ∈ f.clauses, l ∉ c.literals ∧ c' = c.removeLiteral l.complement := by
  simp only [Formula.propogateLiteral] at h
  rcases List.mem_map.mp h with ⟨c, hc, rfl⟩
  have hf := List.mem_filter.mp hc
  refine ⟨c, hf.1, ?_, rfl⟩
  have := hf.2
  simp only [Bool.not_eq_eq_eq_not, Bool.not_true] at this
  rw [← Clause.containsLiteral_iff]
  simp [this]

theorem var_ne_of_mem_propogate {f : Formula} {l : Lit} {c' : Clause} {m : Lit}
    (hc : c' ∈ (f.propogateLiteral l).clauses) (hm : m ∈ c'.literals) :
    (∃ c ∈ f.clauses, m ∈ c.literals) ∧ m.var ≠ l.var := by
  rcases mem_propogate hc with ⟨c, hcf, hlc, rfl⟩
  rcases Clause.mem_removeLiteral.mp hm with ⟨hmc, hne⟩
  refine ⟨⟨c, hcf, hmc⟩, ?_⟩
  intro hv
  by_cases hp : m.polarity = l.polarity
  · exact hlc ((Lit.eq_of_var_eq_polarity_eq hv hp) ▸ hmc)
  · have hp2 : m.polarity = !l.polarity := by
      cases hml : m.polarity <;> cases hll : l.polarity <;> simp_all
    exact hne (Lit.eq_complement_of_var_eq hv hp2)

theorem vars_mem_propogate {f : Formula} {l : Lit} {v : Var} :
    v ∈ (f.propogateLiteral l).vars ↔ v ∈ f.vars ∧ v ≠ l.var := by
  simp [Formula.propogateLiteral, List.mem_filter]

theorem vars_length_propogate_le (f : Formula) (l : Lit) :
    (f.propogateLiteral l).vars.length ≤ f.vars.length :=
  List.length_filter_le _ _

theorem vars_length_propogate_lt {f : Formula} {l : Lit} (h : l.var ∈ f.vars) :
    (f.propogateLiteral l).vars.length < f.vars.length := by
  apply List.length_filter_lt_length_iff_exists.mpr
  exact ⟨l.var, h, by simp⟩

theorem varsInvariant_propogate {f : Formula} (h : f.VarsInvariant) (l : Lit) :
    (f.propogateLiteral l).VarsInvariant := by
  intro c' hc' m hm
  rcases var_ne_of_mem_propogate hc' hm with ⟨⟨c, hcf, hmc⟩, hne⟩
  exact vars_mem_propogate.mpr ⟨h c hcf m hmc, hne⟩

theorem clausesSize_cons (c : Clause) (cs : List Clause) :
    clausesSize (c :: cs) = c.literals.length + 1 + clausesSize cs := by
  simp [clausesSize]
  omega

theorem clausesSize_prop_le (l : Lit) (cs : List Clause) :
    clausesSize ((cs.filter (fun c => !(c.containsLiteral l))).map
      (fun c => c.removeLiteral l.complement)) ≤ clausesSize cs := by
  induction cs with
  | nil => simp [clausesSize]
  | cons c cs ih =>
    rw [List.filter_cons]
    by_cases hc : c.containsLiteral l = true
    · have hcc : (!(c.containsLiteral l)) = false := by simp [hc]
      rw [hcc]
      simp only [Bool.false_eq_true, if_false]
      rw [clausesSize_cons]
      omega
    · have hcc : (!(c.containsLiteral l)) = true := by simp [hc]
      rw [hcc]
      simp only [if_true, List.map_cons]
      rw [clausesSize_cons, clausesSize_cons]
      have hlen : (c.removeLiteral l.complement).literals.length ≤ c.literals.length := by
        simpa [Clause.removeLiteral] using List.length_filter_le _ c.literals
      omega

theorem clausesSize_prop_lt {l : Lit} {cs : List Clause}
    (h : ∃ c ∈ cs, l ∈ c.literals) :
    clausesSize ((cs.filter (fun c => !(c.containsLiteral l))).map
      (fun c => c.removeLiteral l.complement)) < clausesSize cs := by
  induction cs with
  | nil => rcases h with ⟨c, hc, _⟩; cases hc
  | cons c cs ih =>
    rw [List.filter_cons]
    by_cases hc : c.containsLiteral l = true
    · have hcc : (!(c.containsLiteral l)) = false := by simp [hc]
      rw [hcc]
      simp only [Bool.false_eq_true, if_false]
      have h1 := clausesSize_prop_le l cs
      rw [clausesSize_cons]
      omega
    · have hcc : (!(c.containsLiteral l)) = true := by simp [hc]
      rw [hcc]
      simp only [if_true, List.map_cons]
      rw [clausesSize_cons, clausesSize_cons]
      have hlen : (c.removeLiteral l.complement).literals.length ≤ c.literals.length := by
        simpa [Clause.removeLiteral] using List.length_filter_le _ c.literals
      have hrest : ∃ c0 ∈ cs, l ∈ c0.literals := by
        rcases h with ⟨c0, hc0, hl0⟩
        rcases List.mem_cons.mp hc0 with rfl | hmem
        · exact absurd ((Clause.containsLiteral_iff c0 l).mpr hl0) hc
        · exact ⟨c0, hmem, hl0⟩
      have := ih hrest
      omega

theorem totalSize_propogate_le (f : Formula) (l : Lit) :
    (f.propogateLiteral l).totalSize ≤ f.totalSize :=
  clausesSize_prop_le l f.clauses

theorem totalSize_propogate_lt {f : Formula} {l : Lit}
    (h : ∃ c ∈ f.clauses, l ∈ c.literals) :
    (f.propogateLiteral l).totalSize < f.totalSize :=
  clausesSize_prop_lt h

/-! ### Occurrence lemmas: unit and pure literals occur in the formula -/

theorem isUnit_mem {c : Clause} {a : Assignments} {u : Lit}
    (h : c.isUnit a = some u) : u ∈ c.literals := by
  unfold Clause.isUnit at h
  by_cases hl : (c.literals.filter (fun l => containsKey a l.var)).length = 1
  · rw [if_pos hl] at h
    exact List.mem_filter.mp (List.mem_of_mem_head? (h ▸ Option.mem_def.mpr rfl)) |>.1
  · rw [if_neg hl] at h
    cases h

theorem findUnit_occurs {f : Formula} {a : Assignments} {u : Lit}
    (h : f.findUnit a = some u) : ∃ c ∈ f.clauses, u ∈ c.literals := by
  unfold Formula.findUnit at h
  rcases List.exists_of_findSome?_eq_some h with ⟨c, hc, hcu⟩
  exact ⟨c, hc, isUnit_mem hcu⟩

theorem pureGo_sub (all : List Lit) :
    ∀ ls acc, ∀ x ∈ pureGo all ls acc, x ∈ acc ∨ x ∈ ls := by
  intro ls
  induction ls with
  | nil => intro acc x hx; exact Or.inl hx
  | cons l ls ih =>
    intro acc x hx
    unfold pureGo at hx
    by_cases hcond : (!(all.contains l.complement) && !(acc.contains l)) = true
    · rw [if_pos hcond] at hx
      rcases ih (acc ++ [l]) x hx with hA | hB
      · rcases List.mem_append.mp hA with h1 | h2
        · exact Or.inl h1
        · exact Or.inr (List.mem_cons.mpr (Or.inl (List.mem_singleton.mp h2)))
      · exact Or.inr (List.mem_cons_of_mem l hB)
    · rw [if_neg hcond] at hx
      rcases ih acc x hx with hA | hB
      · exact Or.inl hA
      · exact Or.inr (List.mem_cons_of_mem l hB)

theorem pureGo_noComplement (all : List Lit) :
    ∀ ls acc, (∀ x ∈ acc, all.contains x.complement = false) →
      ∀ x ∈ pureGo all ls acc, all.contains x.complement = false := by
  intro ls
  induction ls with
  | nil => intro acc hacc x hx; exact hacc x hx
  | cons l ls ih =>
    intro acc hacc x hx
    unfold pureGo at hx
    by_cases hcond : (!(all.contains l.complement) && !(acc.contains l)) = true
    · rw [if_pos hcond] at hx
      refine ih (acc ++ [l]) ?_ x hx
      intro y hy
      rcases List.mem_append.mp hy with h1 | h2
      · exact hacc y h1
      · rw [List.mem_singleton.mp h2]
        have := (Bool.and_eq_true _ _).mp hcond |>.1
        simp only [Bool.not_eq_eq_eq_not, Bool.not_true] at this
        exact this
    · rw [if_neg hcond] at hx
      exact ih acc hacc x hx

theorem pureLiterals_occurs {f : Formula} {p : Lit} (h : p ∈ f.pureLiterals) :
    ∃ c ∈ f.clauses, p ∈ c.literals := by
  unfold Formula.pureLiterals at h
  rcases pureGo_sub _ _ _ p h with hA | hB
  · cases hA
  · rcases List.mem_flatten.mp hB with ⟨ls, hls, hpls⟩
    rcases List.mem_map.mp hls with ⟨c, hc, rfl⟩
    exact ⟨c, hc, hpls⟩

theorem pureLiterals_noComplement {f : Formula} {p : Lit} (h : p ∈ f.pureLiterals) :
    ∀ c ∈ f.clauses, p.complement ∉ c.literals := by
  unfold Formula.pureLiterals at h
  have hc := pureGo_noComplement _ _ [] (by intro x hx; cases hx) p h
  intro c hcf hmem
  have : p.complement ∈ (f.clauses.map Clause.literals).flatten :=
    List.mem_flatten.mpr ⟨c.literals, List.mem_map.mpr ⟨c, hcf, rfl⟩, hmem⟩
  have hmm : ((f.clauses.map Clause.literals).flatten).contains p.complement = true := by
    simpa using this
  rw [hc] at hmm
  cases hmm

theorem unitStep_size {f f1 : Formula} {a a1 : Assignments}
    (h : unitStep f a = some (f1, a1)) : f1.totalSize < f.totalSize := by
  unfold unitStep at h
  cases hu : f.findUnit a with
  | none => rw [hu] at h; cases h
  | some u =>
    rw [hu] at h
    cases h
    exact totalSize_propogate_lt (findUnit_occurs hu)

theorem pureStep_spec {f f2 : Formula} {a a2 : Assignments}
    (h : pureStep f a = some (f2, a2)) :
    ∃ p ∈ f.pureLiterals, containsKey a p.var = false ∧
      f2 = f.propogateLiteral p ∧ a2 = insertA a p.var p.polarity := by
  unfold pureStep at h
  cases hp : f.pureLiterals.head? with
  | none => rw [hp] at h; cases h
  | some p =>
    simp only [hp] at h
    by_cases hck : containsKey a p.var = true
    · rw [if_pos hck] at h; cases h
    · rw [if_neg hck] at h
      cases h
      exact ⟨p, List.mem_of_mem_head? (hp ▸ Option.mem_def.mpr rfl),
        Bool.eq_false_iff.mpr hck, rfl, rfl⟩

theorem pureStep_size {f f2 : Formula} {a a2 : Assignments}
    (h : pureStep f a = some (f2, a2)) : f2.totalSize < f.totalSize := by
  rcases pureStep_spec h with ⟨p, hp, _, rfl, _⟩
  exact totalSize_propogate_lt (pureLiterals_occurs hp)

theorem unitStep_spec {f f1 : Formula} {a a1 : Assignments}
    (h : unitStep f a = some (f1, a1)) :
    ∃ u, f.findUnit a = some u ∧ f1 = f.propogateLiteral u ∧
      a1 = insertA a u.var u.polarity := by
  unfold unitStep at h
  cases hu : f.findUnit a with
  | none => rw [hu] at h; cases h
  | some u => rw [hu] at h; cases h; exact ⟨u, rfl, rfl, rfl⟩

/-- Fuel irrelevance for the propagation loop: any fuel above the
formula's total size computes the loop's fixpoint, so the fuel in
`Formula.bcp` is an artifact of the embedding. -/
theorem bcpLoopF_fuel_irrelevant : ∀ n m (f : Formula) (a : Assignments),
    f.totalSize < n → f.totalSize < m → bcpLoopF n f a = bcpLoopF m f a := by
  intro n
  induction n with
  | zero => intro m f a h _; exact absurd h (Nat.not_lt_zero _)
  | succ n ih =>
    intro m f a hn hm
    cases m with
    | zero => exact absurd hm (Nat.not_lt_zero _)
    | succ m =>
      cases hu : unitStep f a with
      | some p1 =>
        obtain ⟨f1, a1⟩ := p1
        have hs1 : f1.totalSize < f.totalSize := unitStep_size hu
        cases hp : pureStep f1 a1 with
        | some p2 =>
          obtain ⟨f2, a2⟩ := p2
          have hs2 : f2.totalSize < f1.totalSize := pureStep_size hp
          simp only [bcpLoopF, hu, hp]
          exact ih m f2 a2 (by omega) (by omega)
        | none =>
          simp only [bcpLoopF, hu, hp]
          exact ih m f1 a1 (by omega) (by omega)
      | none =>
        cases hp : pureStep f a with
        | some p2 =>
          obtain ⟨f2, a2⟩ := p2
          have hs2 : f2.totalSize < f.totalSize := pureStep_size hp
          simp only [bcpLoopF, hu, hp]
          exact ih m f2 a2 (by omega) (by omega)
        | none => simp only [bcpLoopF, hu, hp]

/-- The loop never grows the variable set and preserves the
variables-contain-clause-variables invariant. -/
theorem bcpLoopF_vars : ∀ n (f : Formula) (a : Assignments),
    (bcpLoopF n f a).1.vars.length ≤ f.vars.length ∧
    (f.VarsInvariant → (bcpLoopF n f a).1.VarsInvariant) := by
  intro n
  induction n with
  | zero => intro f a; exact ⟨le_refl _, id⟩
  | succ n ih =>
    intro f a
    cases hu : unitStep f a with
    | some p1 =>
      obtain ⟨f1, a1⟩ := p1
      have h1 : f1.vars.length ≤ f.vars.length ∧ (f.VarsInvariant → f1.VarsInvariant) := by
        rcases unitStep_spec hu with ⟨u, _, rfl, _⟩
        exact ⟨vars_length_propogate_le f u, fun h => varsInvariant_propogate h u⟩
      cases hp : pureStep f1 a1 with
      | some p2 =>
        obtain ⟨f2, a2⟩ := p2
        have h2 : f2.vars.length ≤ f1.vars.length ∧ (f1.VarsInvariant → f2.VarsInvariant) := by
          rcases pureStep_spec hp with ⟨p, _, _, rfl, _⟩
          exact ⟨vars_length_propogate_le f1 p, fun h => varsInvariant_propogate h p⟩
        have h3 := ih f2 a2
        simp only [bcpLoopF, hu, hp]
        exact ⟨le_trans h3.1 (le_trans h2.1 h1.1), fun h => h3.2 (h2.2 (h1.2 h))⟩
      | none =>
        have h3 := ih f1 a1
        simp only [bcpLoopF, hu, hp]
        exact ⟨le_trans h3.1 h1.1, fun h => h3.2 (h1.2 h)⟩
    | none =>
      cases hp : pureStep f a with
      | some p2 =>
        obtain ⟨f2, a2⟩ := p2
        have h2 : f2.vars.length ≤ f.vars.length ∧ (f.VarsInvariant → f2.VarsInvariant) := by
          rcases pureStep_spec hp with ⟨p, _, _, rfl, _⟩
          exact ⟨vars_length_propogate_le f p, fun h => varsInvariant_propogate h p⟩
        have h3 := ih f2 a2
        simp only [bcpLoopF, hu, hp]
        exact ⟨le_trans h3.1 h2.1, fun h => h3.2 (h2.2 h)⟩
      | none =>
        simp only [bcpLoopF, hu, hp]
        exact ⟨le_refl _, id⟩

/-! ### The propagation loop under the disjointness invariant -/

theorem isUnit_eq_none {c : Clause} {a : Assignments}
    (h : ∀ l ∈ c.literals, lookupL a l.var = none) : c.isUnit a = none := by
  unfold Clause.isUnit
  have hf : c.literals.filter (fun l => containsKey a l.var) = [] := by
    apply List.filter_eq_nil_iff.mpr
    intro l hl
    simp [containsKey, h l hl]
  rw [hf]
  simp

theorem findUnit_none {f : Formula} {a : Assignments}
    (h : ∀ c ∈ f.clauses, ∀ l ∈ c.literals, lookupL a l.var = none) :
    f.findUnit a = none := by
  unfold Formula.findUnit
  exact List.findSome?_eq_none_iff.mpr (fun c hc => isUnit_eq_none (h c hc))

theorem invDisj_propogate {f : Formula} {a : Assignments} (h : InvDisj f a) (l : Lit) :
    InvDisj (f.propogateLiteral l) (insertA a l.var l.polarity) := by
  constructor
  · intro c' hc' m hm
    rcases var_ne_of_mem_propogate hc' hm with ⟨⟨c, hcf, hmc⟩, hne⟩
    rw [lookupL_insert_ne _ _ hne]
    exact h.1 c hcf m hmc
  · intro v hv
    rcases vars_mem_propogate.mp hv with ⟨hvf, hne⟩
    rw [lookupL_insert_ne _ _ hne]
    exact h.2 v hvf

theorem satBy_propogate {f : Formula} {l : Lit} {s : Assignments}
    (hl : lookupL s l.var = some l.polarity)
    (h : SatBy s (f.propogateLiteral l)) : SatBy s f := by
  intro c hc
  by_cases hcl : l ∈ c.literals
  · exact ⟨l, hcl, hl⟩
  · have hc' : c.removeLiteral l.complement ∈ (f.propogateLiteral l).clauses := by
      simp only [Formula.propogateLiteral]
      apply List.mem_map.mpr
      refine ⟨c, List.mem_filter.mpr ⟨hc, ?_⟩, rfl⟩
      simp only [Bool.not_eq_eq_eq_not, Bool.not_true]
      exact Bool.eq_false_iff.mpr (fun hh => hcl ((Clause.containsLiteral_iff c l).mp hh))
    rcases h _ hc' with ⟨m, hm, hmv⟩
    exact ⟨m, (Clause.mem_removeLiteral.mp hm).1, hmv⟩

theorem satT_propogate {f : Formula} {l : Lit} {t : Var → Bool}
    (hl : t l.var = l.polarity) (h : SatT t f) : SatT t (f.propogateLiteral l) := by
  intro c' hc'
  rcases mem_propogate hc' with ⟨c, hcf, hlc, rfl⟩
  rcases h c hcf with ⟨m, hm, hmv⟩
  by_cases hmc : m = l.complement
  · subst hmc
    rw [Lit.complement_var, Lit.complement_polarity, hl] at hmv
    simp at hmv
  · exact ⟨m, Clause.mem_removeLiteral.mpr ⟨hm, hmc⟩, hmv⟩

theorem satT_pure_update {f : Formula} {p : Lit} {t : Var → Bool}
    (hp : p ∈ f.pureLiterals) (h : SatT t f) :
    SatT (fun v => if v = p.var then p.polarity else t v) f := by
  intro c hc
  rcases h c hc with ⟨m, hm, hmv⟩
  by_cases hv : m.var = p.var
  · by_cases hpol : m.polarity = p.polarity
    · exact ⟨m, hm, by simp [hv, hpol]⟩
    · have hcomp : m = p.complement := Lit.eq_complement_of_var_eq hv
        (by cases hA : m.polarity <;> cases hB : p.polarity <;> simp_all)
      exact absurd (hcomp ▸ hm) (pureLiterals_noComplement hp c hc)
  · exact ⟨m, hm, by simp [hv, hmv]⟩

theorem consistent_insert {t : Var → Bool} {a : Assignments} {v : Var} {b : Bool}
    (h : Consistent t a) (hv : t v = b) : Consistent t (insertA a v b) := by
  intro w bw hw
  by_cases hwv : w = v
  · subst hwv; rw [lookupL_insert_self] at hw; cases hw; exact hv
  · rw [lookupL_insert_ne _ _ hwv] at hw; exact h w bw hw

theorem consistent_update_of_unassigned {t : Var → Bool} {a : Assignments} {p : Lit}
    (h : Consistent t a) (hun : lookupL a p.var = none) :
    Consistent (fun v => if v = p.var then p.polarity else t v) a := by
  intro w bw hw
  by_cases hwv : w = p.var
  · rw [hwv, hun] at hw; cases hw
  · simp only [hwv, if_false]
    exact h w bw hw

theorem extends_insert {a : Assignments} {v : Var} {b : Bool}
    (h : lookupL a v = none) : Extends a (insertA a v b) := by
  intro w bw hw
  by_cases hwv : w = v
  · rw [hwv, h] at hw; cases hw
  · rw [lookupL_insert_ne _ _ hwv]; exact hw

/-- The propagation loop under the disjointness invariant: the unit step
never fires (no clause mentions an assigned variable), the pure steps
preserve the invariant and key-uniqueness, the final assignment extends
the initial one, satisfaction of the final formula transfers back to the
initial one, and satisfiability is preserved forward. -/
theorem bcpLoopF_props : ∀ n (f : Formula) (a : Assignments), InvDisj f a → NodupKeys a →
    InvDisj (bcpLoopF n f a).1 (bcpLoopF n f a).2 ∧
    NodupKeys (bcpLoopF n f a).2 ∧
    Extends a (bcpLoopF n f a).2 ∧
    (∀ s, Extends (bcpLoopF n f a).2 s → SatBy s (bcpLoopF n f a).1 → SatBy s f) ∧
    (∀ t : Var → Bool, Consistent t a → SatT t f →
      ∃ u : Var → Bool, Consistent u (bcpLoopF n f a).2 ∧ SatT u (bcpLoopF n f a).1) := by
  intro n
  induction n with
  | zero =>
    intro f a h hn
    exact ⟨h, hn, fun v b hv => hv, fun s _ hsb => hsb, fun t hc hs => ⟨t, hc, hs⟩⟩
  | succ n ih =>
    intro f a hInv hN
    have hu : unitStep f a = none := by
      unfold unitStep
      rw [findUnit_none hInv.1]
    cases hp : pureStep f a with
    | none =>
      simp only [bcpLoopF, hu, hp]
      exact ⟨hInv, hN, fun v b hv => hv, fun s _ hsb => hsb, fun t hc hs => ⟨t, hc, hs⟩⟩
    | some p2 =>
      obtain ⟨f2, a2⟩ := p2
      rcases pureStep_spec hp with ⟨p, hpp, hck, rfl, rfl⟩
      have hun : lookupL a p.var = none := by
        cases hl : lookupL a p.var with
        | none => rfl
        | some b =>
          unfold containsKey at hck
          rw [hl] at hck
          simp at hck
      have hInv2 : InvDisj (f.propogateLiteral p) (insertA a p.var p.polarity) :=
        invDisj_propogate hInv p
      have hN2 : NodupKeys (insertA a p.var p.polarity) := insertA_nodupKeys hN p.var p.polarity
      have hExt2 : Extends a (insertA a p.var p.polarity) := extends_insert hun
      have IH := ih (f.propogateLiteral p) (insertA a p.var p.polarity) hInv2 hN2
      simp only [bcpLoopF, hu, hp]
      refine ⟨IH.1, IH.2.1, ?_, ?_, ?_⟩
      · intro v b hv
        exact IH.2.2.1 v b (hExt2 v b hv)
      · intro s hs hsb
        have hSB2 := IH.2.2.2.1 s hs hsb
        refine satBy_propogate ?_ hSB2
        have h1 : lookupL (insertA a p.var p.polarity) p.var = some p.polarity :=
          lookupL_insert_self _ _ _
        exact hs p.var p.polarity (IH.2.2.1 p.var p.polarity h1)
      · intro t hc hs
        have hct : Consistent (fun v => if v = p.var then p.polarity else t v)
            (insertA a p.var p.polarity) :=
          consistent_insert (consistent_update_of_unassigned hc hun) (by simp)
        have hst : SatT (fun v => if v = p.var then p.polarity else t v)
            (f.propogateLiteral p) :=
          satT_propogate (by simp) (satT_pure_update hpp hs)
        exact IH.2.2.2.2 _ hct hst

/-! ### Panic freedom, fuel irrelevance, soundness and completeness of
`attempt_solve` -/

theorem vars_ne_nil {f : Formula} (hv : f.VarsInvariant)
    (hne : f.clauses.isEmpty = false)
    (hno : (f.clauses.any fun c => c.isEmpty) = false) :
    ∃ v, f.vars.head? = some v := by
  have hcs : ∃ c ∈ f.clauses, ∃ l, l ∈ c.literals := by
    have hnil : f.clauses ≠ [] := by
      intro hh; rw [hh] at hne; simp at hne
    rcases List.exists_mem_of_ne_nil f.clauses hnil with ⟨c, hcmem⟩
    have hce : ¬(c.isEmpty = true) := (List.any_eq_false.mp hno) c hcmem
    have hlnil : c.literals ≠ [] := by
      intro hh; exact hce (by simp [Clause.isEmpty, hh])
    rcases List.exists_mem_of_ne_nil c.literals hlnil with ⟨l, hlmem⟩
    exact ⟨c, hcmem, l, hlmem⟩
  rcases hcs with ⟨c, hcmem, l, hl⟩
  have hvmem : l.var ∈ f.vars := hv c hcmem l hl
  cases hvv : f.vars with
  | nil => rw [hvv] at hvmem; cases hvmem
  | cons v vs => exact ⟨v, rfl⟩

theorem branch_vars_length {f : Formula} {v : Var} (hm : v ∈ f.vars) (b : Bool) :
    (f.propogateLiteral (Lit.fromVar v b)).vars.length < f.vars.length :=
  vars_length_propogate_lt (by rw [Lit.fromVar_var]; exact hm)

/-- Given the variable-set invariant and fuel above the number of
variables, `attempt_solve` never reaches the `unwrap` marked `panicked`
(nor runs out of fuel). -/
theorem attemptSolve_no_panic : ∀ (fuel : Nat) (f : Formula) (a : Assignments),
    f.VarsInvariant → f.vars.length < fuel →
    attemptSolveF fuel f a ≠ SolveResult.panicked := by
  intro fuel
  induction fuel with
  | zero => intro f a _ h; exact absurd h (Nat.not_lt_zero _)
  | succ fuel ih =>
    intro f a hv hlen
    have hbcp := bcpLoopF_vars (f.totalSize + 1) f a
    have hple : (f.bcp a).1.vars.length ≤ f.vars.length := hbcp.1
    have hpv : (f.bcp a).1.VarsInvariant := hbcp.2 hv
    simp only [attemptSolveF]
    by_cases h1 : (f.bcp a).1.clauses.isEmpty = true
    · rw [if_pos h1]; intro hcon; cases hcon
    · by_cases h2 : ((f.bcp a).1.clauses.any fun c => c.isEmpty) = true
      · rw [if_neg h1, if_pos h2]; intro hcon; cases hcon
      · rw [if_neg h1, if_neg h2]
        rcases vars_ne_nil hpv (Bool.eq_false_iff.mpr h1) (Bool.eq_false_iff.mpr h2) with ⟨v, hhead⟩
        have hvm : v ∈ (f.bcp a).1.vars := List.mem_of_mem_head? (Option.mem_def.mpr hhead)
        simp only [hhead]
        have hlT : ((f.bcp a).1.propogateLiteral (Lit.fromVar v true)).vars.length < fuel := by
          have := branch_vars_length hvm true
          omega
        have hlF : ((f.bcp a).1.propogateLiteral (Lit.fromVar v false)).vars.length < fuel := by
          have := branch_vars_length hvm false
          omega
        have hT := ih _ (insertA (f.bcp a).2 v true) (varsInvariant_propogate hpv _) hlT
        have hF := ih _ (insertA (f.bcp a).2 v false) (varsInvariant_propogate hpv _) hlF
        cases hres : attemptSolveF fuel ((f.bcp a).1.propogateLiteral (Lit.fromVar v true))
            (insertA (f.bcp a).2 v true) with
        | sat s => simp only [hres]; intro hcon; cases hcon
        | panicked => exact absurd hres hT
        | unsat =>
          simp only [hres]
          cases hresF : attemptSolveF fuel ((f.bcp a).1.propogateLiteral (Lit.fromVar v false))
              (insertA (f.bcp a).2 v false) with
          | sat s => simp only [hresF]; intro hcon; cases hcon
          | panicked => exact absurd hresF hF
          | unsat => simp only [hresF]; intro hcon; cases hcon

/-- Recursion-depth bound: any two fuels above the number of distinct
variables give the same result, so `attempt_solve` recursion depth is
bounded by the variable count. -/
theorem attemptSolveF_fuel_irrelevant : ∀ (n m : Nat) (f : Formula) (a : Assignments),
    f.vars.length < n → f.vars.length < m →
    attemptSolveF n f a = attemptSolveF m f a := by
  intro n
  induction n with
  | zero => intro m f a h _; exact absurd h (Nat.not_lt_zero _)
  | succ n ih =>
    intro m f a hn hm
    cases m with
    | zero => exact absurd hm (Nat.not_lt_zero _)
    | succ m =>
      have hbcp := bcpLoopF_vars (f.totalSize + 1) f a
      have hple : (f.bcp a).1.vars.length ≤ f.vars.length := hbcp.1
      simp only [attemptSolveF]
      by_cases h1 : (f.bcp a).1.clauses.isEmpty = true
      · rw [if_pos h1, if_pos h1]
      · by_cases h2 : ((f.bcp a).1.clauses.any fun c => c.isEmpty) = true
        · rw [if_neg h1, if_neg h1, if_pos h2, if_pos h2]
        · rw [if_neg h1, if_neg h1, if_neg h2, if_neg h2]
          cases hhead : (f.bcp a).1.vars.head? with
          | none => simp only [hhead]
          | some v =>
            have hvm : v ∈ (f.bcp a).1.vars := List.mem_of_mem_head? (Option.mem_def.mpr hhead)
            have hlTn : ((f.bcp a).1.propogateLiteral (Lit.fromVar v true)).vars.length < n := by
              have := branch_vars_length hvm true; omega
            have hlTm : ((f.bcp a).1.propogateLiteral (Lit.fromVar v true)).vars.length < m := by
              have := branch_vars_length hvm true; omega
            have hlFn : ((f.bcp a).1.propogateLiteral (Lit.fromVar v false)).vars.length < n := by
              have := branch_vars_length hvm false; omega
            have hlFm : ((f.bcp a).1.propogateLiteral (Lit.fromVar v false)).vars.length < m := by
              have := branch_vars_length hvm false; omega
            simp only [hhead]
            rw [ih m _ (insertA (f.bcp a).2 v true) hlTn hlTm,
              ih m _ (insertA (f.bcp a).2 v false) hlFn hlFm]

theorem Formula.evaluateGo_true_iff (a : Assignments) :
    ∀ (cs : List Clause) (d : Bool), Formula.evaluateGo a cs d = some true ↔
      (d = true ∧ ∀ c ∈ cs, c.evaluate a = some true) := by
  intro cs
  induction cs with
  | nil =>
    intro d
    cases d <;> simp [Formula.evaluateGo]
  | cons c cs ih =>
    intro d
    cases hce : c.evaluate a with
    | none =>
      simp only [Formula.evaluateGo, hce]
      rw [ih false]
      constructor
      · rintro ⟨h, _⟩; cases h
      · rintro ⟨hd, hall⟩
        have := hall c (List.mem_cons_self c cs)
        rw [hce] at this
        cases this
    | some b =>
      cases b with
      | true =>
        simp only [Formula.evaluateGo, hce]
        rw [ih d]
        constructor
        · rintro ⟨hd, hall⟩
          refine ⟨hd, ?_⟩
          intro c' hc'
          rcases List.mem_cons.mp hc' with rfl | hm
          · exact hce
          · exact hall c' hm
        · rintro ⟨hd, hall⟩
          exact ⟨hd, fun c' hc' => hall c' (List.mem_cons_of_mem c hc')⟩
      | false =>
        simp only [Formula.evaluateGo, hce]
        constructor
        · intro h; cases h
        · rintro ⟨hd, hall⟩
          have := hall c (List.mem_cons_self c cs)
          rw [hce] at this
          cases this

/-- If `attempt_solve` (with the disjointness invariant holding) returns
an assignment, that assignment has unique keys, extends the input
assignment, and makes a literal of every clause true. -/
theorem attemptSolve_sound : ∀ (fuel : Nat) (f : Formula) (a s : Assignments),
    InvDisj f a → NodupKeys a → attemptSolveF fuel f a = .sat s →
    NodupKeys s ∧ Extends a s ∧ SatBy s f := by
  intro fuel
  induction fuel with
  | zero => intro f a s _ _ h; cases h
  | succ fuel ih =>
    intro f a s hInv hN hres
    obtain ⟨hI, hNd, hE, hTr, _⟩ := bcpLoopF_props (f.totalSize + 1) f a hInv hN
    simp only [attemptSolveF] at hres
    by_cases h1 : (f.bcp a).1.clauses.isEmpty = true
    · rw [if_pos h1] at hres
      cases hres
      refine ⟨hNd, hE, ?_⟩
      apply hTr _ (fun v b hv => hv)
      intro c hc
      rw [List.isEmpty_iff] at h1
      have hc2 : c ∈ (f.bcp a).1.clauses := hc
      rw [h1] at hc2
      cases hc2
    · by_cases h2 : ((f.bcp a).1.clauses.any fun c => c.isEmpty) = true
      · rw [if_neg h1, if_pos h2] at hres; cases hres
      · rw [if_neg h1, if_neg h2] at hres
        cases hhead : (f.bcp a).1.vars.head? with
        | none => simp only [hhead] at hres; cases hres
        | some v =>
          simp only [hhead] at hres
          have hvm : v ∈ (f.bcp a).1.vars := List.mem_of_mem_head? (Option.mem_def.mpr hhead)
          have hvunas : lookupL (f.bcp a).2 v = none := hI.2 v hvm
          cases hresT : attemptSolveF fuel ((f.bcp a).1.propogateLiteral (Lit.fromVar v true))
              (insertA (f.bcp a).2 v true) with
          | sat sT =>
            simp only [hresT] at hres
            cases hres
            have hInvT : InvDisj ((f.bcp a).1.propogateLiteral (Lit.fromVar v true))
                (insertA (f.bcp a).2 v true) := by
              have := invDisj_propogate hI (Lit.fromVar v true)
              rwa [Lit.fromVar_var, Lit.fromVar_polarity] at this
            obtain ⟨hNs, hEs, hSs⟩ := ih _ _ _ hInvT (insertA_nodupKeys hNd v true) hresT
            have hEfull : Extends (f.bcp a).2 s :=
              fun w bw hw => hEs w bw (extends_insert hvunas w bw hw)
            refine ⟨hNs, fun w bw hw => hEfull w bw (hE w bw hw), ?_⟩
            have hsv : lookupL s v = some true := hEs v true (lookupL_insert_self _ _ _)
            have hSB1 : SatBy s (f.bcp a).1 := by
              refine satBy_propogate (l := Lit.fromVar v true) ?_ hSs
              rw [Lit.fromVar_var, Lit.fromVar_polarity]
              exact hsv
            exact hTr s hEfull hSB1
          | panicked => simp only [hresT] at hres; cases hres
          | unsat =>
            simp only [hresT] at hres
            cases hresF : attemptSolveF fuel ((f.bcp a).1.propogateLiteral (Lit.fromVar v false))
                (insertA (f.bcp a).2 v false) with
            | sat sF =>
              simp only [hresF] at hres
              cases hres
              have hInvF : InvDisj ((f.bcp a).1.propogateLiteral (Lit.fromVar v false))
                  (insertA (f.bcp a).2 v false) := by
                have := invDisj_propogate hI (Lit.fromVar v false)
                rwa [Lit.fromVar_var, Lit.fromVar_polarity] at this
              obtain ⟨hNs, hEs, hSs⟩ := ih _ _ _ hInvF (insertA_nodupKeys hNd v false) hresF
              have hEfull : Extends (f.bcp a).2 s :=
                fun w bw hw => hEs w bw (extends_insert hvunas w bw hw)
              refine ⟨hNs, fun w bw hw => hEfull w bw (hE w bw hw), ?_⟩
              have hsv : lookupL s v = some false := hEs v false (lookupL_insert_self _ _ _)
              have hSB1 : SatBy s (f.bcp a).1 := by
                refine satBy_propogate (l := Lit.fromVar v false) ?_ hSs
                rw [Lit.fromVar_var, Lit.fromVar_polarity]
                exact hsv
              exact hTr s hEfull hSB1
            | panicked => simp only [hresF] at hres; cases hres
            | unsat => simp only [hresF] at hres; cases hres

/-- Completeness of `attempt_solve`: under the invariants, if a total
assignment consistent with the current partial assignment satisfies the
formula, the search returns an assignment. -/
theorem attemptSolve_complete : ∀ (fuel : Nat) (f : Formula) (a : Assignments) (t : Var → Bool),
    InvDisj f a → NodupKeys a → f.VarsInvariant → f.vars.length < fuel →
    Consistent t a → SatT t f →
    ∃ s, attemptSolveF fuel f a = .sat s := by
  intro fuel
  induction fuel with
  | zero => intro f a t _ _ _ h _ _; exact absurd h (Nat.not_lt_zero _)
  | succ fuel ih =>
    intro f a t hInv hN hVI hlen hC hS
    obtain ⟨hI, hNd, hE, hTr, hCmp⟩ := bcpLoopF_props (f.totalSize + 1) f a hInv hN
    obtain ⟨hple, hpvi⟩ := bcpLoopF_vars (f.totalSize + 1) f a
    have hple2 : (f.bcp a).1.vars.length ≤ f.vars.length := hple
    rcases hCmp t hC hS with ⟨u, hCu, hSu⟩
    simp only [attemptSolveF]
    by_cases h1 : (f.bcp a).1.clauses.isEmpty = true
    · rw [if_pos h1]; exact ⟨_, rfl⟩
    · have h2 : ((f.bcp a).1.clauses.any fun c => c.isEmpty) = false := by
        apply List.any_eq_false.mpr
        intro c hc hce
        have hc2 : c ∈ (bcpLoopF (f.totalSize + 1) f a).1.clauses := hc
        rcases hSu c hc2 with ⟨l, hl, _⟩
        unfold Clause.isEmpty at hce
        rw [List.isEmpty_iff] at hce
        rw [hce] at hl
        cases hl
      rw [if_neg h1, if_neg (Bool.eq_false_iff.mp h2)]
      have hpv2 : (f.bcp a).1.VarsInvariant := hpvi hVI
      rcases vars_ne_nil hpv2 (Bool.eq_false_iff.mpr h1) h2 with ⟨v, hhead⟩
      simp only [hhead]
      have hvm : v ∈ (f.bcp a).1.vars := List.mem_of_mem_head? (Option.mem_def.mpr hhead)
      cases hub : u v with
      | true =>
        have hInvT : InvDisj ((f.bcp a).1.propogateLiteral (Lit.fromVar v true))
            (insertA (f.bcp a).2 v true) := by
          have := invDisj_propogate hI (Lit.fromVar v true)
          rwa [Lit.fromVar_var, Lit.fromVar_polarity] at this
        have hCT : Consistent u (insertA (f.bcp a).2 v true) := consistent_insert hCu hub
        have hST : SatT u ((f.bcp a).1.propogateLiteral (Lit.fromVar v true)) := by
          refine satT_propogate ?_ hSu
          rw [Lit.fromVar_var, Lit.fromVar_polarity]
          exact hub
        have hlenT : ((f.bcp a).1.propogateLiteral (Lit.fromVar v true)).vars.length < fuel := by
          have := branch_vars_length hvm true; omega
        rcases ih _ _ u hInvT (insertA_nodupKeys hNd v true)
          (varsInvariant_propogate (hpvi hVI) _) hlenT hCT hST with ⟨s, hs⟩
        exact ⟨s, by simp only [hs]⟩
      | false =>
        have hnp := attemptSolve_no_panic fuel ((f.bcp a).1.propogateLiteral (Lit.fromVar v true))
          (insertA (f.bcp a).2 v true)
          (varsInvariant_propogate hpv2 (Lit.fromVar v true))
          (by have := branch_vars_length hvm true; omega)
        cases hresT : attemptSolveF fuel ((f.bcp a).1.propogateLiteral (Lit.fromVar v true))
            (insertA (f.bcp a).2 v true) with
        | sat sT => exact ⟨sT, by simp only [hresT]⟩
        | panicked => exact absurd hresT hnp
        | unsat =>
          have hInvF : InvDisj ((f.bcp a).1.propogateLiteral (Lit.fromVar v false))
              (insertA (f.bcp a).2 v false) := by
            have := invDisj_propogate hI (Lit.fromVar v false)
            rwa [Lit.fromVar_var, Lit.fromVar_polarity] at this
          have hCF : Consistent u (insertA (f.bcp a).2 v false) := consistent_insert hCu hub
          have hSF : SatT u ((f.bcp a).1.propogateLiteral (Lit.fromVar v false)) := by
            refine satT_propogate ?_ hSu
            rw [Lit.fromVar_var, Lit.fromVar_polarity]
            exact hub
          have hlenF : ((f.bcp a).1.propogateLiteral (Lit.fromVar v false)).vars.length < fuel := by
            have := branch_vars_length hvm false; omega
          rcases ih _ _ u hInvF (insertA_nodupKeys hNd v false)
            (varsInvariant_propogate (hpvi hVI) _) hlenF hCF hSF with ⟨s, hs⟩
          exact ⟨s, by simp only [hresT, hs]⟩

theorem mem_insertVar {vs : List Var} {v : Var} (w : Var) (h : v ∈ vs) :
    v ∈ insertVar vs w := by
  unfold insertVar
  by_cases hw : w ∈ vs
  · rw [if_pos hw]; exact h
  · rw [if_neg hw]; exact List.mem_append.mpr (Or.inl h)

theorem mem_insertVar_self (vs : List Var) (w : Var) : w ∈ insertVar vs w := by
  unfold insertVar
  by_cases hw : w ∈ vs
  · rw [if_pos hw]; exact hw
  · rw [if_neg hw]; exact List.mem_append.mpr (Or.inr (List.mem_singleton.mpr rfl))

theorem mem_foldl_insertVar (ls : List Lit) : ∀ (vs : List Var) (v : Var),
    v ∈ vs → v ∈ ls.foldl (fun acc l => insertVar acc l.var) vs := by
  induction ls with
  | nil => intro vs v h; exact h
  | cons l ls ih => intro vs v h; exact ih _ v (mem_insertVar l.var h)

theorem mem_foldl_insertVar_self (ls : List Lit) : ∀ (vs : List Var) (l : Lit),
    l ∈ ls → l.var ∈ ls.foldl (fun acc l => insertVar acc l.var) vs := by
  induction ls with
  | nil => intro vs l h; cases h
  | cons m ls ih =>
    intro vs l h
    rcases List.mem_cons.mp h with rfl | hm
    · exact mem_foldl_insertVar ls _ l.var (mem_insertVar_self vs l.var)
    · exact ih _ l hm

theorem varsInvariant_addClause {f : Formula} (h : f.VarsInvariant) (c : Clause) :
    (f.addClause c).VarsInvariant := by
  intro c' hc' l hl
  rcases List.mem_append.mp hc' with h1 | h2
  · exact mem_foldl_insertVar _ _ _ (h c' h1 l hl)
  · rw [List.mem_singleton.mp h2] at hl
    exact mem_foldl_insertVar_self _ _ l hl

/-! ### Claim theorems: the formula-level DPLL solver -/

/-- C1: evaluation soundness — when `Formula::solve` returns an
assignment `A`, every clause of the formula evaluates to true under `A`,
and under every assignment vector `B` whose bindings (as read by
`Formula::evaluate`, i.e. through the hash map it builds) extend those of
`A` — in particular under every extension of `A` to the unassigned
variables. -/
theorem solve_sound (f : Formula) (A B : List (Var × Bool))
    (h : f.solve = some A)
    (hB : ∀ v b, lookupL A v = some b → lookupL (hmOf B) v = some b) :
    f.evaluate B = some true := by
  unfold Formula.solve at h
  cases hres : attemptSolveF (f.vars.length + 1) f [] with
  | sat a0 =>
    rw [hres] at h
    cases h
    obtain ⟨hN0, _, hS0⟩ := attemptSolve_sound _ f [] a0
      ⟨fun c hc l hl => rfl, fun v hv => rfl⟩ nodupKeys_nil hres
    have hperm : a0.Perm (List.insertionSort (fun p q => p.1.index ≤ q.1.index) a0) :=
      (List.perm_insertionSort _ a0).symm
    have hlook := lookupL_eq_of_perm hperm hN0
    unfold Formula.evaluate
    rw [Formula.evaluateGo_true_iff]
    refine ⟨rfl, ?_⟩
    intro c hc
    rcases hS0 c hc with ⟨l, hl, hv⟩
    rw [Clause.evaluate_eq_some_true]
    refine ⟨l, hl, ?_⟩
    apply hB
    rw [← hlook l.var]
    exact hv
  | panicked => rw [hres] at h; cases h
  | unsat => rw [hres] at h; cases h

/-- Witness for C1 on the one-clause formula `{1}`: the solver returns
`x₁ ↦ true` and the formula evaluates to true under it. -/
theorem solve_sound_witness :
    Formula.solve (Formula.ofClauses [Clause.ofList [Lit.fromVar ⟨0⟩ true]])
      = some [(⟨0⟩, true)] ∧
    Formula.evaluate (Formula.ofClauses [Clause.ofList [Lit.fromVar ⟨0⟩ true]])
      [(⟨0⟩, true)] = some true :=
  ⟨by decide, solve_sound _ _ _ (by decide) (fun v b hb => hb)⟩

/-- C2: completeness — for a formula whose variable set covers its
clauses (as `add_clause` guarantees), `solve` returns some assignment
exactly when some total assignment satisfies every clause. -/
theorem solve_iff_satisfiable (f : Formula) (h : f.VarsInvariant) :
    (f.solve).isSome ↔ f.Satisfiable := by
  constructor
  · intro hs
    unfold Formula.solve at hs
    cases hres : attemptSolveF (f.vars.length + 1) f [] with
    | sat a0 =>
      obtain ⟨_, _, hSB⟩ := attemptSolve_sound _ f [] a0
        ⟨fun c hc l hl => rfl, fun v hv => rfl⟩ nodupKeys_nil hres
      refine ⟨fun v => (lookupL a0 v).getD false, ?_⟩
      intro c hc
      rcases hSB c hc with ⟨l, hl, hv⟩
      exact ⟨l, hl, by simp [hv]⟩
    | panicked => rw [hres] at hs; simp at hs
    | unsat => rw [hres] at hs; simp at hs
  · rintro ⟨t, hT⟩
    rcases attemptSolve_complete (f.vars.length + 1) f [] t
      ⟨fun c hc l hl => rfl, fun v hv => rfl⟩ nodupKeys_nil h (Nat.lt_succ_self _)
      (fun v b hv => by cases hv) hT with ⟨s, hs⟩
    unfold Formula.solve
    rw [hs]
    simp

/-- Witness for C2 on the one-clause formula `{1}`. -/
theorem solve_iff_satisfiable_witness :
    (Formula.ofClauses [Clause.ofList [Lit.fromVar ⟨0⟩ true]]).VarsInvariant ∧
    ((Formula.ofClauses [Clause.ofList [Lit.fromVar ⟨0⟩ true]]).solve.isSome ↔
      (Formula.ofClauses [Clause.ofList [Lit.fromVar ⟨0⟩ true]]).Satisfiable) :=
  ⟨by unfold Formula.VarsInvariant; decide,
   solve_iff_satisfiable _ (by unfold Formula.VarsInvariant; decide)⟩

/-- C7: termination — the recursion of `attempt_solve` reaches a depth
bounded by the number of distinct variables: any two fuel bounds above
`f.vars.length` give the same result, and each branching step removes at
least one variable (the branch variable) from the variable set before
recursing. -/
theorem attemptSolve_depth_bound (f : Formula) (a : Assignments) (n m : Nat)
    (hn : f.vars.length < n) (hm : f.vars.length < m) :
    attemptSolveF n f a = attemptSolveF m f a ∧
    (∀ (v : Var) (b : Bool), v ∈ f.vars →
      (f.propogateLiteral (Lit.fromVar v b)).vars.length < f.vars.length) :=
  ⟨attemptSolveF_fuel_irrelevant n m f a hn hm,
   fun _ b hv => branch_vars_length hv b⟩

/-- Witness for C7 on the one-clause formula `{1}` with fuels 2 and 3. -/
theorem attemptSolve_depth_bound_witness :
    attemptSolveF 2 (Formula.ofClauses [Clause.ofList [Lit.fromVar ⟨0⟩ true]]) [] =
      attemptSolveF 3 (Formula.ofClauses [Clause.ofList [Lit.fromVar ⟨0⟩ true]]) [] :=
  (attemptSolve_depth_bound _ [] 2 3 (by decide) (by decide)).1

/-- C10: the variable-set invariant (every variable occurring in a clause
belongs to the variable set) is preserved by `add_clause` and by
`propogate_literal`, and under it the `unwrap` at the branching step of
`attempt_solve` never panics (modelled as the result never being
`panicked`). -/
theorem varsInvariant_no_panic (f : Formula) (a : Assignments) (fuel : Nat) :
    (∀ (g : Formula) (c : Clause), g.VarsInvariant → (g.addClause c).VarsInvariant) ∧
    (∀ (g : Formula) (l : Lit), g.VarsInvariant → (g.propogateLiteral l).VarsInvariant) ∧
    (f.VarsInvariant → f.vars.length < fuel →
      attemptSolveF fuel f a ≠ SolveResult.panicked) :=
  ⟨fun _ c hg => varsInvariant_addClause hg c,
   fun _ l hg => varsInvariant_propogate hg l,
   fun hv hlen => attemptSolve_no_panic fuel f a hv hlen⟩

/-- Witness for C10 on the one-clause formula `{1}` with fuel 2. -/
theorem varsInvariant_no_panic_witness :
    attemptSolveF 2 (Formula.ofClauses [Clause.ofList [Lit.fromVar ⟨0⟩ true]]) []
      ≠ SolveResult.panicked :=
  (varsInvariant_no_panic _ [] 2).2.2 (by unfold Formula.VarsInvariant; decide) (by decide)

/-! ### Claim theorems and lemmas: the watched-literal solver -/

/-- C3: `solver.rs::solve` returns the unsatisfiable signal (`None`,
modelled `unsat`) on a formula with no clauses, for any fuel. -/
theorem solverSolve_empty_formula (fuel : Nat) (f : Formula) (h : f.clauses = []) :
    solverSolve fuel f = SolveResult.unsat := by
  unfold solverSolve
  rw [if_pos (by rw [h]; rfl)]

/-- Witness for C3 at the empty formula. -/
theorem solverSolve_empty_formula_witness :
    Formula.new.clauses = [] ∧ solverSolve 0 Formula.new = SolveResult.unsat :=
  ⟨rfl, solverSolve_empty_formula 0 Formula.new rfl⟩

theorem assignment_evaluate_nil (l : Lit) : Assignment.evaluate [] l = none := rfl

theorem evaluate_set_ne {asg : Assignment} {v : Var} {value : Bool} {l : Lit}
    (h : l.var ≠ v) :
    Assignment.evaluate (insertA asg v value) l = Assignment.evaluate asg l := by
  unfold Assignment.evaluate
  rw [lookupL_insert_ne _ _ h]

theorem initState_watching {c : Clause} {a b : Lit}
    (hg : c.literals.Pairwise (fun l m => l.var ≠ m.var))
    (h : initState c = ClauseState.Watching a b) : a.var ≠ b.var := by
  unfold initState at h
  cases hl : c.literals with
  | nil => rw [hl] at h; cases h
  | cons x xs =>
    cases hxs : xs with
    | nil => rw [hl, hxs] at h; cases h
    | cons y ys =>
      rw [hl, hxs] at h
      rw [hl, hxs] at hg
      injection h with h1 h2
      subst h1
      subst h2
      exact (List.pairwise_cons.mp hg).1 _ (List.mem_cons_self _ _)

theorem scanClause_newLit {asg : Assignment} {other : Lit} :
    ∀ (ls : List Lit) (acc : Option Lit) (nl : Lit),
      (∀ x, acc = some x → Assignment.evaluate asg x = none ∧ x.var ≠ other.var) →
      scanClause asg other ls acc = .newLit (some nl) →
      Assignment.evaluate asg nl = none ∧ nl.var ≠ other.var := by
  intro ls
  induction ls with
  | nil =>
    intro acc nl hacc h
    unfold scanClause at h
    cases h
    exact hacc nl rfl
  | cons l ls ih =>
    intro acc nl hacc h
    cases he : Assignment.evaluate asg l with
    | some b =>
      cases b with
      | false =>
        simp only [scanClause, he] at h
        exact ih acc nl hacc h
      | true =>
        simp only [scanClause, he] at h
        cases h
    | none =>
      simp only [scanClause, he] at h
      by_cases hv : l.var ≠ other.var
      · rw [if_pos hv] at h
        exact ih (some l) nl (fun x hx => by cases hx; exact ⟨he, hv⟩) h
      · rw [if_neg hv] at h
        exact ih acc nl hacc h

theorem stepState_watchOK {asg0 : Assignment} {v : Var} {value : Bool} {c : Clause}
    {s : ClauseState} (hpre : WatchOK asg0 s) :
    WatchOK (insertA asg0 v value) (stepState (insertA asg0 v value) v value c s).1 := by
  intro a b hab
  cases s with
  | Complete st =>
    simp only [stepState] at hab
    by_cases hs : st = true
    · rw [if_pos hs] at hab; cases hab
    · rw [if_neg hs] at hab; cases hab
  | Unit l =>
    simp only [stepState] at hab
    by_cases hlv : l.var = v
    · rw [if_pos hlv] at hab
      by_cases hev : l.evaluate value = true
      · rw [if_pos hev] at hab; cases hab
      · rw [if_neg hev] at hab; cases hab
    · rw [if_neg hlv] at hab; cases hab
  | Watching wa wb =>
    obtain ⟨hvv, hfa, hfb⟩ := hpre wa wb rfl
    simp only [stepState] at hab
    by_cases hskip : (wa.var ≠ v ∧ wb.var ≠ v)
    · rw [if_pos hskip] at hab
      cases hab
      refine ⟨hvv, ?_, ?_⟩
      · rw [evaluate_set_ne hskip.1]; exact hfa
      · rw [evaluate_set_ne hskip.2]; exact hfb
    · rw [if_neg hskip] at hab
      by_cases htrue : ((Assignment.evaluate (insertA asg0 v value) wa).getD false ||
          (Assignment.evaluate (insertA asg0 v value) wb).getD false) = true
      · rw [if_pos htrue] at hab; cases hab
      · rw [if_neg htrue] at hab
        have hoth : (if wa.var = v then wb else wa).var ≠ v := by
          by_cases hwa : wa.var = v
          · rw [if_pos hwa]
            intro hh
            exact hvv (hwa.trans hh.symm)
          · rw [if_neg hwa]
            exact hwa
        have hnotfalse : Assignment.evaluate (insertA asg0 v value)
            (if wa.var = v then wb else wa) ≠ some false := by
          rw [evaluate_set_ne hoth]
          by_cases hwa : wa.var = v
          · rw [if_pos hwa]; exact hfb
          · rw [if_neg hwa]; exact hfa
        have hnottrue : Assignment.evaluate (insertA asg0 v value)
            (if wa.var = v then wb else wa) ≠ some true := by
          intro hh
          apply htrue
          by_cases hwa : wa.var = v
          · rw [if_pos hwa] at hh
            rw [hh]
            simp
          · rw [if_neg hwa] at hh
            rw [hh]
            simp
        have hother_none : Assignment.evaluate (insertA asg0 v value)
            (if wa.var = v then wb else wa) = none := by
          cases he : Assignment.evaluate (insertA asg0 v value)
              (if wa.var = v then wb else wa) with
          | none => rfl
          | some bb =>
            cases bb with
            | false => exact absurd he hnotfalse
            | true => exact absurd he hnottrue
        cases hscan : scanClause (insertA asg0 v value) (if wa.var = v then wb else wa)
            c.literals none with
        | completeTrue => simp only [hscan] at hab; cases hab
        | newLit onl =>
          cases onl with
          | none => simp only [hscan] at hab; cases hab
          | some nl =>
            simp only [hscan] at hab
            injection hab with h1 h2
            subst h1
            subst h2
            have hnl := scanClause_newLit c.literals none _ (fun x hx => by cases hx) hscan
            refine ⟨fun hh => hnl.2 hh.symm, ?_, ?_⟩
            · intro hh; rw [hother_none] at hh; cases hh
            · intro hh; rw [hnl.1] at hh; cases hh

theorem assignLoop_watchOK {asg0 : Assignment} {v : Var} {value : Bool} :
    ∀ (l : List (Clause × ClauseState)),
      (∀ p ∈ l, WatchOK asg0 p.2) →
      (assignLoop (insertA asg0 v value) v value l).2 = false →
      ∀ s ∈ (assignLoop (insertA asg0 v value) v value l).1,
        WatchOK (insertA asg0 v value) s := by
  intro l
  induction l with
  | nil =>
    intro _ _ s hs
    cases hs
  | cons p rest ih =>
    intro hpre hconf s hs
    obtain ⟨c, s0⟩ := p
    simp only [assignLoop] at hconf hs
    by_cases hr2 : (stepState (insertA asg0 v value) v value c s0).2 = true
    · rw [if_pos hr2] at hconf
      cases hconf
    · rw [if_neg hr2] at hconf hs
      rcases List.mem_cons.mp hs with rfl | hmem
      · exact stepState_watchOK (hpre (c, s0) (List.mem_cons_self _ _))
      · exact ih (fun q hq => hpre q (List.mem_cons_of_mem _ hq)) hconf s hmem

theorem assign_watchOK {ctx : Context} {v : Var} {value : Bool}
    (hpre : ∀ s ∈ ctx.clauseStates, WatchOK ctx.assignment s)
    (hnc : (ctx.assign v value).2 = false) :
    ∀ s ∈ (ctx.assign v value).1.clauseStates,
      WatchOK (ctx.assign v value).1.assignment s := by
  have hnc2 : (assignLoop (insertA ctx.assignment v value) v value
      (ctx.formula.clauses.zip ctx.clauseStates)).2 = false := hnc
  intro s hs
  have hs2 : s ∈ (assignLoop (insertA ctx.assignment v value) v value
      (ctx.formula.clauses.zip ctx.clauseStates)).1 := hs
  exact assignLoop_watchOK _ (fun p hp => hpre p.2 (List.of_mem_zip hp).2) hnc2 s hs2

theorem reachable_watchOK {f : Formula} (hf : GoodFormula f) :
    ∀ {ctx : Context}, ReachableCtx f ctx →
      ∀ s ∈ ctx.clauseStates, WatchOK ctx.assignment s := by
  intro ctx h
  induction h with
  | base =>
    intro s hs
    have hs2 : s ∈ f.clauses.map initState := hs
    rcases List.mem_map.mp hs2 with ⟨c, hc, rfl⟩
    intro a b hab
    refine ⟨initState_watching (hf c hc) hab, ?_, ?_⟩
    · intro hh
      have hh2 : Assignment.evaluate [] a = some false := hh
      rw [assignment_evaluate_nil] at hh2
      cases hh2
    · intro hh
      have hh2 : Assignment.evaluate [] b = some false := hh
      rw [assignment_evaluate_nil] at hh2
      cases hh2
  | step v b hr hnc ih =>
    exact assign_watchOK ih hnc

/-- C4 counterexample: a duplicate-literal clause (buildable through the
construction API, which performs no checks) yields, already in the
reachable at-rest state produced by `Context::new`, a `Watching(a, b)`
whose two watches are the same literal — `var(a) ≠ var(b)` fails. -/
theorem watched_invariant_counterexample :
    ReachableCtx
      (Formula.ofClauses [Clause.ofList [Lit.fromVar ⟨0⟩ true, Lit.fromVar ⟨0⟩ true]])
      (Context.new
        (Formula.ofClauses [Clause.ofList [Lit.fromVar ⟨0⟩ true, Lit.fromVar ⟨0⟩ true]])) ∧
    ClauseState.Watching (Lit.fromVar ⟨0⟩ true) (Lit.fromVar ⟨0⟩ true) ∈
      (Context.new
        (Formula.ofClauses [Clause.ofList [Lit.fromVar ⟨0⟩ true, Lit.fromVar ⟨0⟩ true]])).clauseStates ∧
    (Lit.fromVar ⟨0⟩ true).var = (Lit.fromVar ⟨0⟩ true).var :=
  ⟨ReachableCtx.base, by decide, rfl⟩

/-- C4 amended: for formulas whose clauses have pairwise-distinct
variables (the construction contract of spec §3), every reachable at-rest
solver state satisfies the watched-literal invariant: in every
`Watching(a, b)` state the watched variables differ and neither watch
evaluates to false under the current assignment. -/
theorem watched_invariant (f : Formula) (hf : GoodFormula f) (ctx : Context)
    (h : ReachableCtx f ctx) :
    ∀ s ∈ ctx.clauseStates, ∀ a b, s = ClauseState.Watching a b →
      a.var ≠ b.var ∧ ctx.assignment.evaluate a ≠ some false ∧
      ctx.assignment.evaluate b ≠ some false :=
  fun s hs a b hab => reachable_watchOK hf h s hs a b hab

/-- Witness for C4 on the two-literal clause `{1, 2}` at the fresh
context. -/
theorem watched_invariant_witness :
    GoodFormula (Formula.ofClauses [Clause.ofList [Lit.fromVar ⟨0⟩ true, Lit.fromVar ⟨1⟩ true]]) ∧
    (∀ s ∈ (Context.new (Formula.ofClauses
        [Clause.ofList [Lit.fromVar ⟨0⟩ true, Lit.fromVar ⟨1⟩ true]])).clauseStates,
      ∀ a b, s = ClauseState.Watching a b →
        a.var ≠ b.var ∧
        (Context.new (Formula.ofClauses
          [Clause.ofList [Lit.fromVar ⟨0⟩ true, Lit.fromVar ⟨1⟩ true]])).assignment.evaluate a
            ≠ some false ∧
        (Context.new (Formula.ofClauses
          [Clause.ofList [Lit.fromVar ⟨0⟩ true, Lit.fromVar ⟨1⟩ true]])).assignment.evaluate b
            ≠ some false) :=
  have hGood : GoodFormula (Formula.ofClauses
      [Clause.ofList [Lit.fromVar ⟨0⟩ true, Lit.fromVar ⟨1⟩ true]]) := by
    unfold GoodFormula
    decide
  ⟨hGood, watched_invariant _ hGood _ ReachableCtx.base⟩
